import Mathlib

/-!
# Verification of the `signatures` command's core
  (src/bin/ion/commands/signatures.rs)

A shallow embedding of the signature-registry core: the `TypeSignature` /
`ContainerSignature` data model, the `SignatureRegistry` with its
hash-consing `get_or_create_id`, the size computation, the recursive
collector `collect_signatures`, and the post-pass
`inline_single_parent_signatures`.

Modelling conventions:
* Rust `HashMap`s are modelled as association lists (`List (key × value)`);
  new bindings are appended.  Lookup (`alook`) returns the first binding.
  `HashMap` iteration order is arbitrary in Rust; theorems that depend on
  iteration order quantify over permutations of the association list order.
* Rust panics (`unwrap`, indexing a missing key) are modelled by `Option`:
  a `none` result is a panic.
* `ContainerSignature::size` recurses through registry lookups, which is not
  structural; it is modelled with an explicit fuel parameter that is spent
  only on registry lookups.  The collector passes `next_id + 1` fuel, which
  is enough because every id stored in a registry entry is smaller than the
  entry's own id (proved below), so lookup chains are strictly decreasing.
* Rust `Vec::sort_by` is a stable sort; it is modelled by a stable insertion
  sort (`sortFields`), which agrees with every stable sort by the same key.
-/

mutual

/-- Rust `enum TypeSignature`: shape of one position.  The ten scalar tags,
a `Container` reference to a registered signature by id, and a `Verbatim`
inline container shape. -/
inductive TypeSignature where
  | Null
  | Bool
  | Int
  | Float
  | Decimal
  | Timestamp
  | String
  | Symbol
  | Blob
  | Clob
  | Container (id : Nat)
  | Verbatim (sig : ContainerSignature)

/-- Rust `enum ContainerSignature`: canonical shape of a container. -/
inductive ContainerSignature where
  | Struct (fields : List (String × TypeSignature))
  | List (elements : List TypeSignature)
  | SExp (elements : List TypeSignature)

end

mutual

/-- Structural equality test on `TypeSignature` (Rust `#[derive(PartialEq, Eq)]`). -/
def tsBeq : TypeSignature → TypeSignature → Bool
  | .Null, .Null => true
  | .Bool, .Bool => true
  | .Int, .Int => true
  | .Float, .Float => true
  | .Decimal, .Decimal => true
  | .Timestamp, .Timestamp => true
  | .String, .String => true
  | .Symbol, .Symbol => true
  | .Blob, .Blob => true
  | .Clob, .Clob => true
  | .Container i, .Container j => i == j
  | .Verbatim s, .Verbatim t => csBeq s t
  | _, _ => false
termination_by a _ => sizeOf a

/-- Structural equality test on `ContainerSignature` (Rust `#[derive(PartialEq, Eq)]`). -/
def csBeq : ContainerSignature → ContainerSignature → Bool
  | .Struct fs, .Struct gs => fieldsBeq fs gs
  | .List xs, .List ys => elemsBeq xs ys
  | .SExp xs, .SExp ys => elemsBeq xs ys
  | _, _ => false
termination_by a _ => sizeOf a

/-- Structural equality test on struct field lists. -/
def fieldsBeq : List (String × TypeSignature) → List (String × TypeSignature) → Bool
  | [], [] => true
  | (n, t) :: fs, (m, u) :: gs => n == m && tsBeq t u && fieldsBeq fs gs
  | _, _ => false
termination_by a _ => sizeOf a

/-- Structural equality test on element lists. -/
def elemsBeq : List TypeSignature → List TypeSignature → Bool
  | [], [] => true
  | t :: ts, u :: us => tsBeq t u && elemsBeq ts us
  | _, _ => false
termination_by a _ => sizeOf a

end

mutual

theorem tsBeq_refl : ∀ a : TypeSignature, tsBeq a a = true
  | .Null => by simp [tsBeq]
  | .Bool => by simp [tsBeq]
  | .Int => by simp [tsBeq]
  | .Float => by simp [tsBeq]
  | .Decimal => by simp [tsBeq]
  | .Timestamp => by simp [tsBeq]
  | .String => by simp [tsBeq]
  | .Symbol => by simp [tsBeq]
  | .Blob => by simp [tsBeq]
  | .Clob => by simp [tsBeq]
  | .Container i => by simp [tsBeq]
  | .Verbatim s => by simp [tsBeq, csBeq_refl s]
termination_by a => sizeOf a

theorem csBeq_refl : ∀ a : ContainerSignature, csBeq a a = true
  | .Struct fs => by simp [csBeq, fieldsBeq_refl fs]
  | .List xs => by simp [csBeq, elemsBeq_refl xs]
  | .SExp xs => by simp [csBeq, elemsBeq_refl xs]
termination_by a => sizeOf a

theorem fieldsBeq_refl : ∀ a : List (String × TypeSignature), fieldsBeq a a = true
  | [] => by simp [fieldsBeq]
  | (n, t) :: fs => by simp [fieldsBeq, tsBeq_refl t, fieldsBeq_refl fs]
termination_by a => sizeOf a

theorem elemsBeq_refl : ∀ a : List TypeSignature, elemsBeq a a = true
  | [] => by simp [elemsBeq]
  | t :: ts => by simp [elemsBeq, tsBeq_refl t, elemsBeq_refl ts]
termination_by a => sizeOf a

end

mutual

theorem tsBeq_sound : ∀ a b : TypeSignature, tsBeq a b = true → a = b
  | .Null, b => by cases b <;> simp [tsBeq]
  | .Bool, b => by cases b <;> simp [tsBeq]
  | .Int, b => by cases b <;> simp [tsBeq]
  | .Float, b => by cases b <;> simp [tsBeq]
  | .Decimal, b => by cases b <;> simp [tsBeq]
  | .Timestamp, b => by cases b <;> simp [tsBeq]
  | .String, b => by cases b <;> simp [tsBeq]
  | .Symbol, b => by cases b <;> simp [tsBeq]
  | .Blob, b => by cases b <;> simp [tsBeq]
  | .Clob, b => by cases b <;> simp [tsBeq]
  | .Container i, b => by cases b <;> simp [tsBeq]
  | .Verbatim s, b => by
    cases b <;> simp [tsBeq]
    exact fun h => csBeq_sound s _ h
termination_by a _ => sizeOf a

theorem csBeq_sound : ∀ a b : ContainerSignature, csBeq a b = true → a = b
  | .Struct fs, b => by
    cases b <;> simp [csBeq]
    exact fun h => fieldsBeq_sound fs _ h
  | .List xs, b => by
    cases b <;> simp [csBeq]
    exact fun h => elemsBeq_sound xs _ h
  | .SExp xs, b => by
    cases b <;> simp [csBeq]
    exact fun h => elemsBeq_sound xs _ h
termination_by a _ => sizeOf a

theorem fieldsBeq_sound :
    ∀ a b : List (String × TypeSignature), fieldsBeq a b = true → a = b
  | [], b => by cases b <;> simp [fieldsBeq]
  | (n, t) :: fs, b => by
    match b with
    | [] => simp [fieldsBeq]
    | (m, u) :: gs =>
      simp only [fieldsBeq, Bool.and_eq_true, beq_iff_eq, List.cons.injEq]
      exact fun ⟨⟨hn, ht⟩, hg⟩ =>
        ⟨by rw [hn, tsBeq_sound t u ht], fieldsBeq_sound fs gs hg⟩
termination_by a _ => sizeOf a

theorem elemsBeq_sound : ∀ a b : List TypeSignature, elemsBeq a b = true → a = b
  | [], b => by cases b <;> simp [elemsBeq]
  | t :: ts, b => by
    match b with
    | [] => simp [elemsBeq]
    | u :: us =>
      simp only [elemsBeq, Bool.and_eq_true, List.cons.injEq]
      exact fun ⟨ht, hu⟩ => ⟨tsBeq_sound t u ht, elemsBeq_sound ts us hu⟩
termination_by a _ => sizeOf a

end

theorem tsBeq_iff (a b : TypeSignature) : tsBeq a b = true ↔ a = b :=
  ⟨tsBeq_sound a b, fun h => h ▸ tsBeq_refl a⟩

theorem csBeq_iff (a b : ContainerSignature) : csBeq a b = true ↔ a = b :=
  ⟨csBeq_sound a b, fun h => h ▸ csBeq_refl a⟩

instance : DecidableEq TypeSignature :=
  fun a b => decidable_of_iff (tsBeq a b = true) (tsBeq_iff a b)

instance : DecidableEq ContainerSignature :=
  fun a b => decidable_of_iff (csBeq a b = true) (csBeq_iff a b)

/-- One registered signature's bookkeeping (Rust `struct SignatureRegistryEntry`). -/
structure SignatureRegistryEntry where
  signature : ContainerSignature
  count : Nat
  parent_count : Nat
  appears_top_level : Bool
  deriving DecidableEq

/-- The hash-consing registry (Rust `struct SignatureRegistry`).  The two
`HashMap`s are modelled as association lists; new bindings are appended. -/
structure SignatureRegistry where
  id_to_signature : List (Nat × SignatureRegistryEntry)
  signature_to_id : List (ContainerSignature × Nat)
  next_id : Nat
  deriving DecidableEq

/-- Association-list lookup: the model of `HashMap::get`. -/
def alook {α β : Type} [DecidableEq α] : List (α × β) → α → Option β
  | [], _ => none
  | p :: rest, k => if p.1 = k then some p.2 else alook rest k

/-- Association-list in-place update at a key: the model of mutating through
`HashMap::get_mut` (the caller checks presence separately, since `get_mut`
on a missing key is a panic at the `unwrap`). -/
def aupd {α β : Type} [DecidableEq α] (l : List (α × β)) (k : α) (f : β → β) :
    List (α × β) :=
  l.map (fun p => if p.1 = k then (p.1, f p.2) else p)

/-- Association-list removal: the model of `HashMap::remove`. -/
def arem {α β : Type} [DecidableEq α] (l : List (α × β)) (k : α) :
    List (α × β) :=
  l.filter (fun p => decide (p.1 ≠ k))

/-- Rust `SignatureRegistry::new()`. -/
def SignatureRegistry.new : SignatureRegistry :=
  { id_to_signature := [], signature_to_id := [], next_id := 0 }

/-- Rust `SignatureRegistry::get_or_create_id`.  Returns `(true, id)` when the
signature is already present (incrementing `count` and or-ing
`appears_top_level`), `(false, id)` with a fresh id otherwise.  `none` models
the panic of `get_mut(&id).unwrap()` when the id index is missing. -/
def get_or_create_id (reg : SignatureRegistry) (signature : ContainerSignature)
    (top_level : Bool) : Option ((Bool × Nat) × SignatureRegistry) :=
  match alook reg.signature_to_id signature with
  | some id =>
    match alook reg.id_to_signature id with
    | none => none
    | some _ =>
      some ((true, id),
        { reg with
            id_to_signature := aupd reg.id_to_signature id (fun e =>
              { e with
                  count := e.count + 1,
                  appears_top_level := e.appears_top_level || top_level }) })
  | none =>
    let id := reg.next_id
    some ((false, id),
      { id_to_signature :=
          reg.id_to_signature ++
            [(id, { signature := signature, count := 1, parent_count := 0,
                    appears_top_level := top_level })],
        signature_to_id := reg.signature_to_id ++ [(signature, id)],
        next_id := id + 1 })

mutual

/-- Rust `ContainerSignature::size`: number of direct children plus the sum of
the children's container sizes.  `fuel` is spent only on registry lookups
(see the module comment); `none` models both fuel exhaustion and the panic of
indexing a missing id inside `TypeSignature::container_size`. -/
def ContainerSignature.size (fuel : Nat) (reg : SignatureRegistry) :
    ContainerSignature → Option Nat
  | .Struct fields => do
    let s ← sizeFields fuel reg fields
    return fields.length + s
  | .List elements => do
    let s ← sizeElems fuel reg elements
    return elements.length + s
  | .SExp elements => do
    let s ← sizeElems fuel reg elements
    return elements.length + s
termination_by s => (fuel, sizeOf s)

/-- Rust `TypeSignature::container_size`: 0 for scalars, the size of the
referenced registry entry's shape for `Container`, the size of the carried
shape for `Verbatim`. -/
def TypeSignature.container_size (fuel : Nat) (reg : SignatureRegistry) :
    TypeSignature → Option Nat
  | .Container id =>
    match fuel, alook reg.id_to_signature id with
    | 0, _ => none
    | _ + 1, none => none
    | f + 1, some e => ContainerSignature.size f reg e.signature
  | .Verbatim sig => ContainerSignature.size fuel reg sig
  | _ => some 0
termination_by t => (fuel, sizeOf t)

/-- Sum of `container_size` over a struct's field list. -/
def sizeFields (fuel : Nat) (reg : SignatureRegistry) :
    List (String × TypeSignature) → Option Nat
  | [] => some 0
  | (_, t) :: rest => do
    let a ← TypeSignature.container_size fuel reg t
    let b ← sizeFields fuel reg rest
    return a + b
termination_by l => (fuel, sizeOf l)

/-- Sum of `container_size` over an element list. -/
def sizeElems (fuel : Nat) (reg : SignatureRegistry) :
    List TypeSignature → Option Nat
  | [] => some 0
  | t :: rest => do
    let a ← TypeSignature.container_size fuel reg t
    let b ← sizeElems fuel reg rest
    return a + b
termination_by l => (fuel, sizeOf l)

end

/-- The decoded input value tree (the interface the out-of-scope reader
provides): scalars, structs with ordered `(field name, value)` pairs — a
field name is `none` when its symbol has no resolvable text — and ordered
lists / s-expressions. -/
inductive IonValue where
  | null
  | bool
  | int
  | float
  | decimal
  | timestamp
  | string
  | symbol
  | blob
  | clob
  | struct (fields : List (Option String × IonValue))
  | list (elements : List IonValue)
  | sexp (elements : List IonValue)

/-- Stable insertion of one field into an already-sorted field list; an
incoming field is placed before strictly greater names and after
less-or-equal names, which preserves source order among equal names. -/
def insertField (x : String × TypeSignature) :
    List (String × TypeSignature) → List (String × TypeSignature)
  | [] => [x]
  | y :: rest => if x.1 ≤ y.1 then x :: y :: rest else y :: insertField x rest

/-- The model of `fields.sort_by(|a, b| a.0.cmp(&b.0))`: a stable sort of the
field list by field name (insertion sort, which agrees with every stable sort
by the same key, in particular with Rust's). -/
def sortFields : List (String × TypeSignature) → List (String × TypeSignature)
  | [] => []
  | x :: rest => insertField x (sortFields rest)

/-- The parent-count bump performed on a newly created registry entry: for
every direct child that is a `Container` reference, increment that child
entry's `parent_count` (Rust: the `for typ in &elements` / `for (_, typ) in
&fields` loops after `get_or_create_id` returns `existing == false`).
`none` models the panic of `get_mut(child_id).unwrap()`. -/
def bump_parents (types : List TypeSignature) (reg : SignatureRegistry) :
    Option SignatureRegistry :=
  match types with
  | [] => some reg
  | t :: rest =>
    match t with
    | .Container child_id =>
      match alook reg.id_to_signature child_id with
      | none => none
      | some _ =>
        bump_parents rest
          { reg with
              id_to_signature := aupd reg.id_to_signature child_id (fun e =>
                { e with parent_count := e.parent_count + 1 }) }
    | _ => bump_parents rest reg

mutual

/-- Rust `collect_signatures`: reduce one decoded value to a `TypeSignature`,
mutating the registry.  Scalars map to their tags; containers are reduced
depth-first and registered when their size reaches `min_size`. -/
def collect_signatures (v : IonValue) (reg : SignatureRegistry)
    (min_size : Nat) (top_level : Bool) :
    Option (TypeSignature × SignatureRegistry) :=
  match v with
  | .null => some (.Null, reg)
  | .bool => some (.Bool, reg)
  | .int => some (.Int, reg)
  | .float => some (.Float, reg)
  | .decimal => some (.Decimal, reg)
  | .timestamp => some (.Timestamp, reg)
  | .string => some (.String, reg)
  | .symbol => some (.Symbol, reg)
  | .blob => some (.Blob, reg)
  | .clob => some (.Clob, reg)
  | .struct s => do
    let (fields, reg₁) ← collectFields s reg min_size
    let sorted := sortFields fields
    let container_sig := ContainerSignature.Struct sorted
    let sz ← container_sig.size (reg₁.next_id + 1) reg₁
    if min_size ≤ sz then do
      let ((existing, id), reg₂) ← get_or_create_id reg₁ container_sig top_level
      if existing then
        return (.Container id, reg₂)
      else do
        let reg₃ ← bump_parents (sorted.map Prod.snd) reg₂
        return (.Container id, reg₃)
    else
      return (.Verbatim container_sig, reg₁)
  | .list l => collect_sequence_signatures l reg min_size top_level .List
  | .sexp s => collect_sequence_signatures s reg min_size top_level .SExp
termination_by (sizeOf v, 2)

/-- Rust `collect_sequence_signatures`, generic over the `List`/`SExp`
constructor. -/
def collect_sequence_signatures (elements_list : List IonValue)
    (reg : SignatureRegistry) (min_size : Nat) (top_level : Bool)
    (signature_constructor : List TypeSignature → ContainerSignature) :
    Option (TypeSignature × SignatureRegistry) := do
  let (elements, reg₁) ← collectElems elements_list reg min_size
  let container_sig := signature_constructor elements
  let sz ← container_sig.size (reg₁.next_id + 1) reg₁
  if min_size ≤ sz then do
    let ((existing, id), reg₂) ← get_or_create_id reg₁ container_sig top_level
    if existing then
      return (.Container id, reg₂)
    else do
      let reg₃ ← bump_parents elements reg₂
      return (.Container id, reg₃)
  else
    return (.Verbatim container_sig, reg₁)
termination_by (sizeOf elements_list, 1)

/-- The field loop of the `Struct` arm of `collect_signatures`: reduce each
field value (never top-level) and pair it with its name, a missing field-name
text becoming `""` (`field.name()?.text().unwrap_or("")`). -/
def collectFields (fields : List (Option String × IonValue))
    (reg : SignatureRegistry) (min_size : Nat) :
    Option (List (String × TypeSignature) × SignatureRegistry) :=
  match fields with
  | [] => some ([], reg)
  | (name, v) :: rest => do
    let (t, reg₁) ← collect_signatures v reg min_size false
    let (ts, reg₂) ← collectFields rest reg₁ min_size
    return ((name.getD "", t) :: ts, reg₂)
termination_by (sizeOf fields, 0)

/-- The element loop of `collect_sequence_signatures`: reduce each element in
order, never top-level. -/
def collectElems (elements : List IonValue) (reg : SignatureRegistry)
    (min_size : Nat) : Option (List TypeSignature × SignatureRegistry) :=
  match elements with
  | [] => some ([], reg)
  | v :: rest => do
    let (t, reg₁) ← collect_signatures v reg min_size false
    let (ts, reg₂) ← collectElems rest reg₁ min_size
    return (t :: ts, reg₂)
termination_by (sizeOf elements, 0)

end

/-- The top-level loop of `run`: feed each top-level value of the stream to
`collect_signatures` with `top_level = true`. -/
def collect_stream (vs : List IonValue) (reg : SignatureRegistry)
    (min_size : Nat) : Option SignatureRegistry :=
  match vs with
  | [] => some reg
  | v :: rest => do
    let (_, reg₁) ← collect_signatures v reg min_size true
    collect_stream rest reg₁ min_size

/-- Rust `SignatureRegistry::replace_container_refs` on one direct child:
a `Container` reference equal to the target id becomes the `Verbatim`
replacement; everything else is untouched. -/
def replace_container_ref (t : TypeSignature) (target_id : Nat)
    (replacement : ContainerSignature) : TypeSignature :=
  match t with
  | .Container id => if id = target_id then .Verbatim replacement else .Container id
  | u => u

/-- Rust `SignatureRegistry::replace_container_refs`: rewrite the direct
children (one level only) of a shape. -/
def replace_container_refs (sig : ContainerSignature) (target_id : Nat)
    (replacement : ContainerSignature) : ContainerSignature :=
  match sig with
  | .Struct fields =>
    .Struct (fields.map (fun p => (p.1, replace_container_ref p.2 target_id replacement)))
  | .List elements =>
    .List (elements.map (fun t => replace_container_ref t target_id replacement))
  | .SExp elements =>
    .SExp (elements.map (fun t => replace_container_ref t target_id replacement))

/-- The per-id loop body of `inline_single_parent_signatures`: for each id in
order, take its current shape, rewrite every entry's direct children, then
remove the id from `id_to_signature` (and only from `id_to_signature`).
`none` models the panic of `self.id_to_signature[&id]` on a missing id. -/
def inline_ids (ids : List Nat) (reg : SignatureRegistry) :
    Option SignatureRegistry :=
  match ids with
  | [] => some reg
  | id :: rest =>
    match alook reg.id_to_signature id with
    | none => none
    | some entry =>
      let signature_to_inline := entry.signature
      let rewritten := reg.id_to_signature.map (fun p =>
        (p.1, { p.2 with
                  signature := replace_container_refs p.2.signature id signature_to_inline }))
      inline_ids rest { reg with id_to_signature := arem rewritten id }

/-- The filter that selects the ids to inline: `parent_count == 1` and not
`appears_top_level`, in the iteration order of the id map. -/
def single_parent_ids (reg : SignatureRegistry) : List Nat :=
  (reg.id_to_signature.filter (fun p =>
    p.2.parent_count == 1 && ! p.2.appears_top_level)).map Prod.fst

/-- Rust `SignatureRegistry::inline_single_parent_signatures`. -/
def inline_single_parent_signatures (reg : SignatureRegistry) :
    Option SignatureRegistry :=
  inline_ids (single_parent_ids reg) reg

/-! ## Association-list lemmas -/

theorem alook_append_left {α β : Type} [DecidableEq α] {l₁ : List (α × β)}
    (l₂ : List (α × β)) {k : α} {v : β} (h : alook l₁ k = some v) :
    alook (l₁ ++ l₂) k = some v := by
  induction l₁ with
  | nil => simp [alook] at h
  | cons p rest ih =>
    by_cases hk : p.1 = k
    · simp [alook, hk] at h ⊢; exact h
    · simp [alook, hk] at h ⊢; exact ih h

theorem alook_append_none {α β : Type} [DecidableEq α] {l₁ : List (α × β)}
    (l₂ : List (α × β)) {k : α} (h : alook l₁ k = none) :
    alook (l₁ ++ l₂) k = alook l₂ k := by
  induction l₁ with
  | nil => simp
  | cons p rest ih =>
    by_cases hk : p.1 = k
    · simp [alook, hk] at h
    · simp [alook, hk] at h ⊢; exact ih h

theorem alook_aupd_self {α β : Type} [DecidableEq α] (l : List (α × β)) (k : α)
    (f : β → β) : alook (aupd l k f) k = (alook l k).map f := by
  induction l with
  | nil => simp [alook, aupd]
  | cons p rest ih =>
    simp only [aupd] at ih ⊢
    by_cases hk : p.1 = k
    · simp [alook, hk]
    · simp [alook, hk, ih]

theorem alook_aupd_ne {α β : Type} [DecidableEq α] (l : List (α × β)) {k k' : α}
    (f : β → β) (h : k' ≠ k) : alook (aupd l k f) k' = alook l k' := by
  induction l with
  | nil => simp [alook, aupd]
  | cons p rest ih =>
    simp only [aupd] at ih ⊢
    by_cases hk : p.1 = k
    · have hne : p.1 ≠ k' := by rw [hk]; exact fun hc => h hc.symm
      simp [alook, hk, hne, h.symm, ih]
    · by_cases hk' : p.1 = k'
      · simp [alook, hk, hk', h]
      · simp [alook, hk, hk', ih]

theorem aupd_keys {α β : Type} [DecidableEq α] (l : List (α × β)) (k : α)
    (f : β → β) : (aupd l k f).map Prod.fst = l.map Prod.fst := by
  induction l with
  | nil => simp [aupd]
  | cons p rest ih =>
    by_cases hk : p.1 = k <;> simp [aupd, hk] at ih ⊢ <;> exact ih

theorem alook_mem {α β : Type} [DecidableEq α] {l : List (α × β)} {k : α}
    {v : β} (h : alook l k = some v) : (k, v) ∈ l := by
  induction l with
  | nil => simp [alook] at h
  | cons p rest ih =>
    by_cases hk : p.1 = k
    · simp [alook, hk] at h
      have hp : p = (k, v) := by
        rw [← hk, ← h]
      rw [← hp]
      exact List.mem_cons_self _ _
    · simp [alook, hk] at h
      exact List.mem_cons_of_mem _ (ih h)

theorem alook_isSome_iff {α β : Type} [DecidableEq α] (l : List (α × β))
    (k : α) : (alook l k).isSome = true ↔ k ∈ l.map Prod.fst := by
  induction l with
  | nil => simp [alook]
  | cons p rest ih =>
    by_cases hk : p.1 = k
    · simp [alook, hk]
    · have hk2 : k ≠ p.1 := fun hc => hk hc.symm
      simp [alook, hk, hk2, ih]

theorem alook_eq_none_iff {α β : Type} [DecidableEq α] (l : List (α × β))
    (k : α) : alook l k = none ↔ k ∉ l.map Prod.fst := by
  rw [← alook_isSome_iff]
  cases alook l k <;> simp

theorem mem_alook_of_nodup {α β : Type} [DecidableEq α] {l : List (α × β)}
    {k : α} {v : β} (hnd : (l.map Prod.fst).Nodup) (h : (k, v) ∈ l) :
    alook l k = some v := by
  induction l with
  | nil => simp at h
  | cons p rest ih =>
    rcases List.mem_cons.mp h with h1 | h1
    · rw [← h1]; simp [alook]
    · simp only [List.map_cons, List.nodup_cons] at hnd
      have hkmem : k ∈ rest.map Prod.fst := List.mem_map.mpr ⟨(k, v), h1, rfl⟩
      have hk : p.1 ≠ k := fun hc => hnd.1 (hc ▸ hkmem)
      simp [alook, hk]
      exact ih hnd.2 h1

theorem arem_cons {α β : Type} [DecidableEq α] (p : α × β)
    (rest : List (α × β)) (k : α) :
    arem (p :: rest) k = if p.1 = k then arem rest k else p :: arem rest k := by
  by_cases hk : p.1 = k <;> simp [arem, List.filter_cons, hk]

theorem alook_arem_self {α β : Type} [DecidableEq α] (l : List (α × β))
    (k : α) : alook (arem l k) k = none := by
  induction l with
  | nil => simp [alook, arem]
  | cons p rest ih =>
    rw [arem_cons]
    by_cases hk : p.1 = k
    · simp [hk, ih]
    · simp [alook, hk, ih]

theorem alook_arem_ne {α β : Type} [DecidableEq α] (l : List (α × β))
    {k k' : α} (h : k' ≠ k) : alook (arem l k) k' = alook l k' := by
  induction l with
  | nil => simp [arem]
  | cons p rest ih =>
    rw [arem_cons]
    by_cases hk : p.1 = k
    · have hne : p.1 ≠ k' := by rw [hk]; exact fun hc => h hc.symm
      rw [if_pos hk, ih]
      simp [alook, hne]
    · rw [if_neg hk]
      by_cases hk' : p.1 = k' <;> simp [alook, hk', ih]

/-! ## Concrete example values and their collection runs -/

/-- The record `{x: 1, y: 2}` (scalar values reduced to their kinds). -/
def vXY : IonValue := .struct [(some "x", .int), (some "y", .int)]

/-- The canonical shape of `vXY`. -/
def SXY : ContainerSignature := .Struct [("x", .Int), ("y", .Int)]

/-- The record `{a: {x: _, y: _}, b: 2}`: a registered inner record nested in
a registered outer record. -/
def vNested2 : IonValue := .struct [(some "a", vXY), (some "b", .int)]

/-- The canonical shape of `vNested2` (the inner record is id 0). -/
def SN2 : ContainerSignature := .Struct [("a", .Container 0), ("b", .Int)]

/-- The registry after collecting `vNested2` from empty with `min_size = 2`. -/
def regN2 : SignatureRegistry :=
  ⟨[(0, ⟨SXY, 1, 1, false⟩), (1, ⟨SN2, 1, 0, true⟩)], [(SXY, 0), (SN2, 1)], 2⟩

/-- `SN2` after id 0 is inlined into it. -/
def SN2i : ContainerSignature := .Struct [("a", .Verbatim SXY), ("b", .Int)]

/-- `regN2` after the inlining pass. -/
def regN2i : SignatureRegistry :=
  ⟨[(1, ⟨SN2i, 1, 0, true⟩)], [(SXY, 0), (SN2, 1)], 2⟩

/-- The record `{a: {x: _, y: _}, b: {x: _, y: _}}`: one parent whose two
fields reference the same child shape. -/
def vDouble : IonValue := .struct [(some "a", vXY), (some "b", vXY)]

/-- The canonical shape of `vDouble`. -/
def SD : ContainerSignature := .Struct [("a", .Container 0), ("b", .Container 0)]

/-- The registry after collecting `vDouble` from empty: the single parent
shape `SD` bumped id 0's `parent_count` once per referencing field. -/
def regD : SignatureRegistry :=
  ⟨[(0, ⟨SXY, 2, 2, false⟩), (1, ⟨SD, 1, 0, true⟩)], [(SXY, 0), (SD, 1)], 2⟩

/-- The record `{b: {x, y}, c: _, d: _}`, middle layer of a three-deep nest. -/
def vMid : IonValue := .struct [(some "b", vXY), (some "c", .int), (some "d", .int)]

/-- The record `{a: {b: {x, y}, c: _, d: _}, e: _}`. -/
def vN3 : IonValue := .struct [(some "a", vMid), (some "e", .int)]

/-- The canonical shape of `vMid`. -/
def SMid : ContainerSignature := .Struct [("b", .Container 0), ("c", .Int), ("d", .Int)]

/-- The canonical shape of `vN3`. -/
def SN3 : ContainerSignature := .Struct [("a", .Container 1), ("e", .Int)]

/-- The registry after collecting `vN3` from empty: ids 0 and 1 both have
`parent_count = 1` and are not top-level, so both are selected for inlining. -/
def regN3 : SignatureRegistry :=
  ⟨[(0, ⟨SXY, 1, 1, false⟩), (1, ⟨SMid, 1, 1, false⟩), (2, ⟨SN3, 1, 0, true⟩)],
   [(SXY, 0), (SMid, 1), (SN3, 2)], 3⟩

/-- `SMid` after id 0 is inlined into it. -/
def SMidi : ContainerSignature := .Struct [("b", .Verbatim SXY), ("c", .Int), ("d", .Int)]

/-- `SN3` fully inlined (inlining order 0 then 1). -/
def SN3A : ContainerSignature := .Struct [("a", .Verbatim SMidi), ("e", .Int)]

/-- `SN3` inlined in the order 1 then 0: the nested reference to id 0 inside
the already-inlined `SMid` is left dangling. -/
def SN3B : ContainerSignature := .Struct [("a", .Verbatim SMid), ("e", .Int)]

/-- Result of inlining `regN3` in the order `[0, 1]`. -/
def regN3A : SignatureRegistry :=
  ⟨[(2, ⟨SN3A, 1, 0, true⟩)], [(SXY, 0), (SMid, 1), (SN3, 2)], 3⟩

/-- Result of inlining `regN3` in the order `[1, 0]`. -/
def regN3B : SignatureRegistry :=
  ⟨[(2, ⟨SN3B, 1, 0, true⟩)], [(SXY, 0), (SMid, 1), (SN3, 2)], 3⟩

/-- The record `{a: 1, a: "s"}` with a duplicated field name. -/
def vDupA : IonValue := .struct [(some "a", .int), (some "a", .string)]

/-- The record `{a: "s", a: 1}`: the same fields in the other source order. -/
def vDupB : IonValue := .struct [(some "a", .string), (some "a", .int)]

/-- The canonical shape produced for `vDupA` (the stable sort keeps source
order among equal field names). -/
def SDupA : ContainerSignature := .Struct [("a", .Int), ("a", .String)]

/-- The canonical shape produced for `vDupB`. -/
def SDupB : ContainerSignature := .Struct [("a", .String), ("a", .Int)]

/-- The registry after collecting `vDupA` from empty. -/
def regDup1 : SignatureRegistry := ⟨[(0, ⟨SDupA, 1, 0, true⟩)], [(SDupA, 0)], 1⟩

/-- The registry after then collecting `vDupB`: a second, distinct entry. -/
def regDup2 : SignatureRegistry :=
  ⟨[(0, ⟨SDupA, 1, 0, true⟩), (1, ⟨SDupB, 1, 0, true⟩)], [(SDupA, 0), (SDupB, 1)], 2⟩

/-- The registry holding `SXY` with occurrence count `n`, the state after
feeding `vXY` as a top-level value `n` times. -/
def regXY (n : Nat) : SignatureRegistry := ⟨[(0, ⟨SXY, n, 0, true⟩)], [(SXY, 0)], 1⟩

theorem eval_collect_vNested2 :
    collect_stream [vNested2] SignatureRegistry.new 2 = some regN2 := by
  have h1 : (['x'] ≤ ['y']) := by decide
  have h2 : (['a'] ≤ ['b']) := by decide
  simp [vNested2, vXY, SXY, SN2, regN2, collect_stream, collect_signatures,
    collectFields, sortFields, insertField, ContainerSignature.size,
    sizeFields, TypeSignature.container_size, get_or_create_id, bump_parents,
    alook, aupd, SignatureRegistry.new, h1, h2]

theorem eval_inline_regN2 :
    inline_single_parent_signatures regN2 = some regN2i := by
  simp [inline_single_parent_signatures, single_parent_ids, inline_ids,
    replace_container_refs, replace_container_ref, regN2, regN2i, SN2, SN2i,
    SXY, alook, arem, List.filter]

theorem eval_single_parent_regN2 : single_parent_ids regN2 = [0] := by
  simp [single_parent_ids, regN2, List.filter]

theorem eval_collect_vDouble :
    collect_signatures vDouble SignatureRegistry.new 2 true =
      some (.Container 1, regD) := by
  have h1 : (['x'] ≤ ['y']) := by decide
  have h2 : (['a'] ≤ ['b']) := by decide
  simp [vDouble, vXY, SXY, SD, regD, collect_signatures, collectFields,
    sortFields, insertField, ContainerSignature.size, sizeFields,
    TypeSignature.container_size, get_or_create_id, bump_parents, alook, aupd,
    SignatureRegistry.new, h1, h2]

theorem eval_collect_vN3 :
    collect_stream [vN3] SignatureRegistry.new 2 = some regN3 := by
  have h1 : (['x'] ≤ ['y']) := by decide
  have h2 : (['c'] ≤ ['d']) := by decide
  have h3 : (['b'] ≤ ['c']) := by decide
  have h4 : (['a'] ≤ ['e']) := by decide
  simp [vN3, vMid, vXY, SXY, SMid, SN3, regN3, collect_stream,
    collect_signatures, collectFields, sortFields, insertField,
    ContainerSignature.size, sizeFields, TypeSignature.container_size,
    get_or_create_id, bump_parents, alook, aupd, SignatureRegistry.new,
    h1, h2, h3, h4]

theorem eval_single_parent_regN3 : single_parent_ids regN3 = [0, 1] := by
  simp [single_parent_ids, regN3, List.filter]

theorem eval_inline_regN3_01 : inline_ids [0, 1] regN3 = some regN3A := by
  simp [inline_ids, replace_container_refs, replace_container_ref, regN3,
    regN3A, SXY, SMid, SMidi, SN3, SN3A, alook, arem, List.filter]

theorem eval_inline_regN3_10 : inline_ids [1, 0] regN3 = some regN3B := by
  simp [inline_ids, replace_container_refs, replace_container_ref, regN3,
    regN3B, SXY, SMid, SN3, SN3B, alook, arem, List.filter]

theorem eval_collect_vDupA :
    collect_signatures vDupA SignatureRegistry.new 2 true =
      some (.Container 0, regDup1) := by
  have h1 : (['a'] ≤ ['a']) := by decide
  simp [vDupA, SDupA, regDup1, collect_signatures, collectFields, sortFields,
    insertField, ContainerSignature.size, sizeFields,
    TypeSignature.container_size, get_or_create_id, alook, aupd, bump_parents,
    SignatureRegistry.new, h1]

theorem eval_collect_vDupB :
    collect_signatures vDupB regDup1 2 true = some (.Container 1, regDup2) := by
  have h1 : (['a'] ≤ ['a']) := by decide
  simp [vDupB, SDupA, SDupB, regDup1, regDup2, collect_signatures,
    collectFields, sortFields, insertField, ContainerSignature.size,
    sizeFields, TypeSignature.container_size, get_or_create_id, alook, aupd,
    bump_parents, h1]

theorem eval_collect_vXY_first :
    collect_signatures vXY SignatureRegistry.new 2 true =
      some (.Container 0, regXY 1) := by
  have h1 : (['x'] ≤ ['y']) := by decide
  simp [vXY, SXY, regXY, collect_signatures, collectFields, sortFields,
    insertField, ContainerSignature.size, sizeFields,
    TypeSignature.container_size, get_or_create_id, alook, aupd, bump_parents,
    SignatureRegistry.new, h1]

theorem eval_collect_vXY_hit (n : Nat) :
    collect_signatures vXY (regXY (n + 1)) 2 true =
      some (.Container 0, regXY (n + 2)) := by
  have h1 : (['x'] ≤ ['y']) := by decide
  simp [vXY, SXY, regXY, collect_signatures, collectFields, sortFields,
    insertField, ContainerSignature.size, sizeFields,
    TypeSignature.container_size, get_or_create_id, alook, aupd, h1]

theorem eval_collect_one_field :
    collect_signatures (.struct [(some "a", .int)]) SignatureRegistry.new 2 true =
      some (.Verbatim (.Struct [("a", .Int)]), SignatureRegistry.new) := by
  simp [collect_signatures, collectFields, sortFields, insertField,
    ContainerSignature.size, sizeFields, TypeSignature.container_size,
    get_or_create_id, alook, aupd, SignatureRegistry.new]

/-! ## Field-name fallback (C10) -/

theorem collectFields_default_names (l : List (Option String × IonValue))
    (reg : SignatureRegistry) (m : Nat) :
    collectFields (l.map (fun p => (some (p.1.getD ""), p.2))) reg m =
      collectFields l reg m := by
  induction l generalizing reg with
  | nil => simp [collectFields]
  | cons p rest ih =>
    obtain ⟨name, v⟩ := p
    simp only [List.map_cons, collectFields]
    cases collect_signatures v reg m false with
    | none => rfl
    | some pr => simp [ih pr.2]

/-- C10: a struct field whose name has no resolvable text is reduced with the
empty string as its field name, so replacing every field name by
`some (name.getD "")` — in particular a text-less (`none`) name by the
literal empty string — leaves the whole reduction of the struct, its
canonical shape, its registered id and the final registry unchanged. -/
theorem C10_empty_field_name_fallback (l : List (Option String × IonValue))
    (reg : SignatureRegistry) (m : Nat) (t : Bool) :
    collect_signatures (.struct (l.map (fun p => (some (p.1.getD ""), p.2)))) reg m t =
      collect_signatures (.struct l) reg m t := by
  simp only [collect_signatures, collectFields_default_names]

/-! ## Inlining pass bookkeeping lemmas -/

theorem alook_map_snd {α β : Type} [DecidableEq α] (l : List (α × β))
    (h : β → β) (k : α) :
    alook (l.map (fun p => (p.1, h p.2))) k = (alook l k).map h := by
  induction l with
  | nil => simp [alook]
  | cons p rest ih =>
    by_cases hk : p.1 = k
    · simp [alook, hk]
    · simp [alook, hk, ih]

/-- The entry rewrite applied to every entry when inlining one id. -/
def inlineRewrite (id : Nat) (repl : ContainerSignature)
    (e : SignatureRegistryEntry) : SignatureRegistryEntry :=
  { e with signature := replace_container_refs e.signature id repl }

theorem inline_ids_cons (id : Nat) (rest : List Nat) (reg : SignatureRegistry) :
    inline_ids (id :: rest) reg =
      match alook reg.id_to_signature id with
      | none => none
      | some entry =>
        inline_ids rest
          { reg with
              id_to_signature :=
                arem (reg.id_to_signature.map (fun p =>
                  (p.1, inlineRewrite id entry.signature p.2))) id } := by
  simp only [inline_ids, inlineRewrite]

theorem inline_ids_sig_map_unchanged (ids : List Nat)
    (reg reg' : SignatureRegistry) (h : inline_ids ids reg = some reg') :
    reg'.signature_to_id = reg.signature_to_id := by
  induction ids generalizing reg with
  | nil =>
    simp [inline_ids] at h
    rw [← h]
  | cons id rest ih =>
    cases hl : alook reg.id_to_signature id with
    | none =>
      simp only [inline_ids_cons, hl] at h
      exact Option.noConfusion h
    | some entry =>
      simp only [inline_ids_cons, hl] at h
      have hh := ih _ h
      exact hh

theorem inline_ids_preserves_absent (ids : List Nat)
    (reg reg' : SignatureRegistry) (h : inline_ids ids reg = some reg')
    (id : Nat) (ha : alook reg.id_to_signature id = none) :
    alook reg'.id_to_signature id = none := by
  induction ids generalizing reg with
  | nil =>
    simp [inline_ids] at h
    rw [← h]; exact ha
  | cons i rest ih =>
    cases hl : alook reg.id_to_signature i with
    | none =>
      simp only [inline_ids_cons, hl] at h
      exact Option.noConfusion h
    | some entry =>
      simp only [inline_ids_cons, hl] at h
      refine ih _ h ?_
      by_cases hid : id = i
      · subst hid; exact alook_arem_self _ _
      · rw [alook_arem_ne _ hid]
        have := alook_map_snd reg.id_to_signature
          (fun e => inlineRewrite i entry.signature e) id
        rw [this, ha]
        rfl

theorem inline_ids_removed (ids : List Nat) (reg reg' : SignatureRegistry)
    (h : inline_ids ids reg = some reg') :
    ∀ id ∈ ids, alook reg'.id_to_signature id = none := by
  induction ids generalizing reg with
  | nil => intro id hid; cases hid
  | cons i rest ih =>
    intro id hid
    cases hl : alook reg.id_to_signature i with
    | none =>
      simp only [inline_ids_cons, hl] at h
      exact Option.noConfusion h
    | some entry =>
      simp only [inline_ids_cons, hl] at h
      rcases List.mem_cons.mp hid with h1 | h1
      · subst h1
        exact inline_ids_preserves_absent _ _ _ h id (alook_arem_self _ _)
      · exact ih _ h id h1

/-- The non-signature data of an entry: occurrence count, parent count,
top-level flag.  The inlining pass rewrites signatures but never these. -/
def entryData (e : SignatureRegistryEntry) : Nat × Nat × Bool :=
  (e.count, e.parent_count, e.appears_top_level)

theorem inline_ids_alook_data (ids : List Nat) (reg reg' : SignatureRegistry)
    (h : inline_ids ids reg = some reg') (k : Nat) :
    (alook reg'.id_to_signature k).map entryData =
      if k ∈ ids then none else (alook reg.id_to_signature k).map entryData := by
  induction ids generalizing reg with
  | nil =>
    simp [inline_ids] at h
    rw [← h]
    simp
  | cons i rest ih =>
    cases hl : alook reg.id_to_signature i with
    | none =>
      simp only [inline_ids_cons, hl] at h
      exact Option.noConfusion h
    | some entry =>
      simp only [inline_ids_cons, hl] at h
      have hh := ih _ h
      rw [hh]
      by_cases hkr : k ∈ rest
      · simp [hkr, List.mem_cons]
      · by_cases hki : k = i
        · subst hki
          simp [hkr, alook_arem_self]
        · have h1 : alook (arem (reg.id_to_signature.map (fun p =>
              (p.1, inlineRewrite i entry.signature p.2))) i) k =
              (alook reg.id_to_signature k).map (inlineRewrite i entry.signature) := by
            rw [alook_arem_ne _ hki]
            exact alook_map_snd _ _ _
          simp only [hkr, if_false, h1, List.mem_cons, hki, false_or]
          rw [Option.map_map]
          rfl

/-- Direct (one-level) child types of a shape. -/
def directChildTypes : ContainerSignature → List TypeSignature
  | .Struct fields => fields.map Prod.snd
  | .List elements => elements
  | .SExp elements => elements

theorem replace_container_ref_ne_target (t : TypeSignature) (i : Nat)
    (r : ContainerSignature) : replace_container_ref t i r ≠ .Container i := by
  cases t with
  | Container id =>
    by_cases hid : id = i <;> simp [replace_container_ref, hid]
  | _ => simp [replace_container_ref]

theorem replace_container_ref_eq_container {t : TypeSignature} {j i : Nat}
    {r : ContainerSignature} (h : replace_container_ref t j r = .Container i) :
    t = .Container i := by
  cases t with
  | Container id =>
    by_cases hid : id = j
    · simp [replace_container_ref, hid] at h
    · simpa [replace_container_ref, hid] using h
  | _ => simpa [replace_container_ref] using h

theorem replace_kills_direct_ref (s : ContainerSignature) (i : Nat)
    (r : ContainerSignature) :
    TypeSignature.Container i ∉ directChildTypes (replace_container_refs s i r) := by
  intro hmem
  cases s with
  | Struct fields =>
    simp only [replace_container_refs, directChildTypes, List.map_map,
      List.mem_map] at hmem
    obtain ⟨p, _, hp⟩ := hmem
    exact replace_container_ref_ne_target p.2 i r hp
  | List elements =>
    simp only [replace_container_refs, directChildTypes, List.mem_map] at hmem
    obtain ⟨t, _, ht⟩ := hmem
    exact replace_container_ref_ne_target t i r ht
  | SExp elements =>
    simp only [replace_container_refs, directChildTypes, List.mem_map] at hmem
    obtain ⟨t, _, ht⟩ := hmem
    exact replace_container_ref_ne_target t i r ht

theorem replace_preserves_no_direct_ref {s : ContainerSignature} {j i : Nat}
    {r : ContainerSignature}
    (h : TypeSignature.Container i ∉ directChildTypes s) :
    TypeSignature.Container i ∉ directChildTypes (replace_container_refs s j r) := by
  intro hmem
  apply h
  cases s with
  | Struct fields =>
    simp only [replace_container_refs, directChildTypes, List.map_map,
      List.mem_map] at hmem ⊢
    obtain ⟨p, hpmem, hp⟩ := hmem
    exact ⟨p, hpmem, replace_container_ref_eq_container hp⟩
  | List elements =>
    simp only [replace_container_refs, directChildTypes, List.mem_map] at hmem ⊢
    obtain ⟨t, htmem, ht⟩ := hmem
    exact (replace_container_ref_eq_container ht) ▸ htmem
  | SExp elements =>
    simp only [replace_container_refs, directChildTypes, List.mem_map] at hmem ⊢
    obtain ⟨t, htmem, ht⟩ := hmem
    exact (replace_container_ref_eq_container ht) ▸ htmem

theorem inline_ids_no_ref_preserved (ids : List Nat)
    (reg reg' : SignatureRegistry) (h : inline_ids ids reg = some reg') (i : Nat)
    (hall : ∀ p ∈ reg.id_to_signature,
      TypeSignature.Container i ∉ directChildTypes p.2.signature) :
    ∀ p ∈ reg'.id_to_signature,
      TypeSignature.Container i ∉ directChildTypes p.2.signature := by
  induction ids generalizing reg with
  | nil =>
    simp [inline_ids] at h
    rw [← h]; exact hall
  | cons j rest ih =>
    cases hl : alook reg.id_to_signature j with
    | none =>
      simp only [inline_ids_cons, hl] at h
      exact Option.noConfusion h
    | some entry =>
      simp only [inline_ids_cons, hl] at h
      refine ih _ h ?_
      intro p hp
      have hp' : p ∈ reg.id_to_signature.map (fun p =>
          (p.1, inlineRewrite j entry.signature p.2)) :=
        List.mem_of_mem_filter hp
      obtain ⟨q, hq, hqe⟩ := List.mem_map.mp hp'
      rw [← hqe]
      exact replace_preserves_no_direct_ref (hall q hq)

theorem inline_ids_no_direct_ref (ids : List Nat) (reg reg' : SignatureRegistry)
    (h : inline_ids ids reg = some reg') :
    ∀ i ∈ ids, ∀ p ∈ reg'.id_to_signature,
      TypeSignature.Container i ∉ directChildTypes p.2.signature := by
  induction ids generalizing reg with
  | nil => intro i hi; cases hi
  | cons j rest ih =>
    intro i hi
    cases hl : alook reg.id_to_signature j with
    | none =>
      simp only [inline_ids_cons, hl] at h
      exact Option.noConfusion h
    | some entry =>
      simp only [inline_ids_cons, hl] at h
      rcases List.mem_cons.mp hi with h1 | h1
      · subst h1
        refine inline_ids_no_ref_preserved _ _ _ h i ?_
        intro p hp
        have hp' : p ∈ reg.id_to_signature.map (fun p =>
            (p.1, inlineRewrite i entry.signature p.2)) :=
          List.mem_of_mem_filter hp
        obtain ⟨q, hq, hqe⟩ := List.mem_map.mp hp'
        rw [← hqe]
        exact replace_kills_direct_ref _ _ _
      · exact ih _ h i h1

/-! ## Claims C2, C3, C5, C7 -/

/-- C3, counterexample: on the reachable registry `regN2` (one nested record
inside one top-level record), the pass deletes the selected id 0 from the
id→entry map but the shape→id index still holds id 0's canonical shape `SXY`
as a key — the claim that the entry is deleted from *both* maps is false
(the code only calls `self.id_to_signature.remove(&id)`). -/
theorem C3_counterexample :
    collect_stream [vNested2] SignatureRegistry.new 2 = some regN2 ∧
    single_parent_ids regN2 = [0] ∧
    inline_single_parent_signatures regN2 = some regN2i ∧
    alook regN2i.id_to_signature 0 = none ∧
    alook regN2i.signature_to_id SXY = some 0 := by
  refine ⟨eval_collect_vNested2, eval_single_parent_regN2, eval_inline_regN2,
    ?_, ?_⟩
  · simp [regN2i, alook]
  · simp [regN2i, alook]

/-- C3 (amended): for every id selected by `inline_single_parent_signatures`,
the id is deleted from the id→entry map, but the shape→id index is left
completely untouched — the pass never writes to `signature_to_id`, so the
inlined shape remains a key there. -/
theorem C3_both_maps_amended (reg reg' : SignatureRegistry)
    (h : inline_single_parent_signatures reg = some reg') :
    (∀ id ∈ single_parent_ids reg, alook reg'.id_to_signature id = none) ∧
    reg'.signature_to_id = reg.signature_to_id :=
  ⟨inline_ids_removed _ _ _ h, inline_ids_sig_map_unchanged _ _ _ h⟩

theorem C3_witness :
    (∀ id ∈ single_parent_ids regN2, alook regN2i.id_to_signature id = none) ∧
    regN2i.signature_to_id = regN2.signature_to_id :=
  C3_both_maps_amended regN2 regN2i eval_inline_regN2

/-- C2, counterexample: in the same reachable run, entry 1 was observed as a
top-level value (`appears_top_level = true`), so by the claim it must survive
the pass *unchanged*; it does survive, but its signature is rewritten (the
reference to the inlined id 0 becomes a `Verbatim` copy), so its entry after
the pass differs from its entry before it. -/
theorem C2_counterexample :
    collect_stream [vNested2] SignatureRegistry.new 2 = some regN2 ∧
    inline_single_parent_signatures regN2 = some regN2i ∧
    alook regN2.id_to_signature 1 =
      some ⟨SN2, 1, 0, true⟩ ∧
    alook regN2i.id_to_signature 1 =
      some ⟨SN2i, 1, 0, true⟩ ∧
    SN2i ≠ SN2 := by
  refine ⟨eval_collect_vNested2, eval_inline_regN2, ?_, ?_, ?_⟩
  · simp [regN2, alook]
  · simp [regN2i, alook]
  · simp [SN2i, SN2]

/-- C2 (amended): after `inline_single_parent_signatures`, every id whose
entry had `parent_count == 1` and `appears_top_level == false` is absent from
the final entry map; no surviving entry retains a *direct* (one-level)
`Container` reference to such an id — each direct reference was replaced by
a `Verbatim` copy of the shape current at processing time; and every other
entry survives with its count, parent count and top-level flag unchanged
(its signature, however, may have been rewritten, and references nested
deeper inside already-inlined `Verbatim` content are not rewritten). -/
theorem C2_inlining_amended (reg reg' : SignatureRegistry)
    (h : inline_single_parent_signatures reg = some reg') :
    (∀ id ∈ single_parent_ids reg, alook reg'.id_to_signature id = none) ∧
    (∀ id ∈ single_parent_ids reg, ∀ p ∈ reg'.id_to_signature,
      TypeSignature.Container id ∉ directChildTypes p.2.signature) ∧
    (∀ k, k ∉ single_parent_ids reg →
      (alook reg'.id_to_signature k).map entryData =
        (alook reg.id_to_signature k).map entryData) := by
  refine ⟨inline_ids_removed _ _ _ h, inline_ids_no_direct_ref _ _ _ h, ?_⟩
  intro k hk
  have hd := inline_ids_alook_data _ _ _ h k
  rwa [if_neg hk] at hd

theorem C2_witness :
    (∀ id ∈ single_parent_ids regN2, alook regN2i.id_to_signature id = none) ∧
    (∀ id ∈ single_parent_ids regN2, ∀ p ∈ regN2i.id_to_signature,
      TypeSignature.Container id ∉ directChildTypes p.2.signature) ∧
    (∀ k, k ∉ single_parent_ids regN2 →
      (alook regN2i.id_to_signature k).map entryData =
        (alook regN2.id_to_signature k).map entryData) :=
  C2_inlining_amended regN2 regN2i eval_inline_regN2

/-- C5, counterexample: on the reachable three-level registry `regN3` the
selected set is `{0, 1}`; processing it in the order `[0, 1]` fully inlines
both shapes, while the permuted order `[1, 0]` leaves a dangling reference
to id 0 buried inside the already-inlined copy of shape 1 — the two final
id→entry maps differ, so the pass is not order-independent. -/
theorem C5_counterexample :
    collect_stream [vN3] SignatureRegistry.new 2 = some regN3 ∧
    single_parent_ids regN3 = [0, 1] ∧
    List.Perm [1, 0] [0, 1] ∧
    inline_ids [0, 1] regN3 = some regN3A ∧
    inline_ids [1, 0] regN3 = some regN3B ∧
    regN3A.id_to_signature ≠ regN3B.id_to_signature := by
  refine ⟨eval_collect_vN3, eval_single_parent_regN3, List.Perm.swap 0 1 [],
    eval_inline_regN3_01, eval_inline_regN3_10, ?_⟩
  simp [regN3A, regN3B, SN3A, SN3B, SMidi, SMid, SXY]

/-- C5 (amended): what *is* order-independent is everything except the
rewritten signatures: for any permutation of the processed id list, the two
final id→entry maps have the same key set and agree pointwise on occurrence
count, parent count and top-level flag, and the shape→id index is identical
(the pass never touches it). -/
theorem C5_order_data_amended (reg : SignatureRegistry) (l₁ l₂ : List Nat)
    (hperm : l₁.Perm l₂) (r₁ r₂ : SignatureRegistry)
    (h₁ : inline_ids l₁ reg = some r₁) (h₂ : inline_ids l₂ reg = some r₂) :
    (∀ k, (alook r₁.id_to_signature k).isSome =
      (alook r₂.id_to_signature k).isSome) ∧
    (∀ k, (alook r₁.id_to_signature k).map entryData =
      (alook r₂.id_to_signature k).map entryData) ∧
    r₁.signature_to_id = r₂.signature_to_id := by
  have hdata : ∀ k, (alook r₁.id_to_signature k).map entryData =
      (alook r₂.id_to_signature k).map entryData := by
    intro k
    rw [inline_ids_alook_data l₁ reg r₁ h₁ k, inline_ids_alook_data l₂ reg r₂ h₂ k]
    by_cases hk : k ∈ l₁
    · simp [hk, hperm.mem_iff.mp hk]
    · have hk2 : k ∉ l₂ := fun hc => hk (hperm.mem_iff.mpr hc)
      simp [hk, hk2]
  refine ⟨?_, hdata, ?_⟩
  · intro k
    have hd := hdata k
    cases ha : alook r₁.id_to_signature k <;>
      cases hb : alook r₂.id_to_signature k <;>
        rw [ha, hb] at hd <;> simp_all
  · rw [inline_ids_sig_map_unchanged l₁ reg r₁ h₁,
      inline_ids_sig_map_unchanged l₂ reg r₂ h₂]

theorem C5_witness :
    (∀ k, (alook regN3A.id_to_signature k).isSome =
      (alook regN3B.id_to_signature k).isSome) ∧
    (∀ k, (alook regN3A.id_to_signature k).map entryData =
      (alook regN3B.id_to_signature k).map entryData) ∧
    regN3A.signature_to_id = regN3B.signature_to_id :=
  C5_order_data_amended regN3 [0, 1] [1, 0] (List.Perm.swap 1 0 [])
    regN3A regN3B eval_inline_regN3_01 eval_inline_regN3_10

/-- C7, counterexample: field-order invariance fails for records with
duplicated field names.  `{a: 1, a: "s"}` and `{a: "s", a: 1}` have the same
(field name, field type) pairs in different source orders, yet the stable
sort by name preserves the source order of the equal names, so the two
records produce different canonical shapes and are registered under the
distinct ids 0 and 1. -/
theorem C7_counterexample :
    List.Perm [(some "a", IonValue.string), (some "a", IonValue.int)]
      [(some "a", IonValue.int), (some "a", IonValue.string)] ∧
    collect_signatures vDupA SignatureRegistry.new 2 true =
      some (.Container 0, regDup1) ∧
    collect_signatures vDupB regDup1 2 true = some (.Container 1, regDup2) ∧
    (0 : Nat) ≠ 1 ∧ SDupA ≠ SDupB := by
  refine ⟨List.Perm.swap (some "a", IonValue.int) (some "a", IonValue.string) [],
    eval_collect_vDupA, eval_collect_vDupB, by simp, ?_⟩
  simp [SDupA, SDupB]

/-! ## Claim C4: parent_count semantics -/

theorem bump_parents_data (types : List TypeSignature)
    (reg reg' : SignatureRegistry) (h : bump_parents types reg = some reg')
    (c : Nat) (e : SignatureRegistryEntry)
    (he : alook reg.id_to_signature c = some e) :
    ∃ e', alook reg'.id_to_signature c = some e' ∧
      e'.parent_count = e.parent_count + types.count (.Container c) ∧
      e'.signature = e.signature ∧ e'.count = e.count ∧
      e'.appears_top_level = e.appears_top_level := by
  induction types generalizing reg e with
  | nil =>
    simp [bump_parents] at h
    exact ⟨e, h ▸ he, by simp, rfl, rfl, rfl⟩
  | cons t rest ih =>
    by_cases hex : ∃ c₀, t = TypeSignature.Container c₀
    · obtain ⟨c₀, rfl⟩ := hex
      cases hl : alook reg.id_to_signature c₀ with
      | none =>
        simp only [bump_parents, hl] at h
        exact Option.noConfusion h
      | some e₀ =>
        simp only [bump_parents, hl] at h
        by_cases hc : c₀ = c
        · subst hc
          have he₁ : alook (aupd reg.id_to_signature c₀ (fun e =>
              { e with parent_count := e.parent_count + 1 })) c₀ =
              some { e with parent_count := e.parent_count + 1 } := by
            rw [alook_aupd_self, he]; rfl
          obtain ⟨e', h1, h2, h3, h4, h5⟩ := ih _ h _ he₁
          refine ⟨e', h1, ?_, h3, h4, h5⟩
          rw [h2]
          simp [List.count_cons]
          omega
        · have he₁ : alook (aupd reg.id_to_signature c₀ (fun e =>
              { e with parent_count := e.parent_count + 1 })) c =
              some e := by
            rw [alook_aupd_ne _ _ (fun hcc => hc hcc.symm)]; exact he
          obtain ⟨e', h1, h2, h3, h4, h5⟩ := ih _ h _ he₁
          refine ⟨e', h1, ?_, h3, h4, h5⟩
          rw [h2]
          have hne : (TypeSignature.Container c ≠ TypeSignature.Container c₀) := by
            intro hcc
            injection hcc with h'
            exact hc h'.symm
          simp [List.count_cons, hne]
    · have hstep : bump_parents (t :: rest) reg = bump_parents rest reg := by
        cases t with
        | Container c₀ => exact absurd ⟨c₀, rfl⟩ hex
        | _ => simp [bump_parents]
      rw [hstep] at h
      obtain ⟨e', h1, h2, h3, h4, h5⟩ := ih _ h _ he
      refine ⟨e', h1, ?_, h3, h4, h5⟩
      rw [h2]
      have hne : (TypeSignature.Container c ≠ t) := fun heq => hex ⟨c, heq.symm⟩
      simp [List.count_cons, hne]

theorem get_or_create_id_parent_data (reg : SignatureRegistry)
    (sig : ContainerSignature) (tl : Bool) (b : Bool) (id : Nat)
    (reg' : SignatureRegistry)
    (h : get_or_create_id reg sig tl = some ((b, id), reg'))
    (c : Nat) (e : SignatureRegistryEntry)
    (he : alook reg.id_to_signature c = some e) :
    ∃ e', alook reg'.id_to_signature c = some e' ∧
      e'.parent_count = e.parent_count ∧ e'.signature = e.signature := by
  cases hs : alook reg.signature_to_id sig with
  | some i =>
    simp only [get_or_create_id, hs] at h
    cases hi : alook reg.id_to_signature i with
    | none =>
      simp only [hi] at h
      exact Option.noConfusion h
    | some e₀ =>
      simp only [hi, Option.some.injEq] at h
      have hreg := congrArg Prod.snd h
      subst hreg
      by_cases hc : c = i
      · subst hc
        refine ⟨{ e with count := e.count + 1, appears_top_level := e.appears_top_level || tl }, ?_, rfl, rfl⟩
        rw [alook_aupd_self, he]
        rfl
      · refine ⟨e, ?_, rfl, rfl⟩
        rw [alook_aupd_ne _ _ hc]
        exact he
  | none =>
    simp only [get_or_create_id, hs, Option.some.injEq] at h
    have hreg := congrArg Prod.snd h
    subst hreg
    exact ⟨e, alook_append_left _ he, rfl, rfl⟩

/-- The registry `regXY 1` after its single entry's `parent_count` is bumped
twice (once per referencing child slot). -/
def regXYb : SignatureRegistry := ⟨[(0, ⟨SXY, 1, 2, true⟩)], [(SXY, 0)], 1⟩

theorem eval_bump_double :
    bump_parents [.Container 0, .Container 0] (regXY 1) = some regXYb := by
  simp [bump_parents, regXY, regXYb, alook, aupd, SXY]

theorem eval_gcid_hit :
    get_or_create_id (regXY 1) SXY true = some ((true, 0), regXY 2) := by
  simp [get_or_create_id, regXY, alook, aupd, SXY]

/-- C4, counterexample: collecting the single top-level record
`{a: {x,y}, b: {x,y}}` from an empty registry creates exactly two entries —
the inner shape (id 0) and the one parent shape `SD` (id 1) that references
id 0 from both of its fields — yet id 0 ends with `parent_count = 2`.  The
claimed bound "a single newly created parent shape contributes at most 1"
is false: the bump loop iterates over every child slot, so one parent
contributed 2. -/
theorem C4_counterexample :
    collect_signatures vDouble SignatureRegistry.new 2 true =
      some (.Container 1, regD) ∧
    regD.id_to_signature.map Prod.fst = [0, 1] ∧
    alook regD.id_to_signature 0 = some ⟨SXY, 2, 2, false⟩ ∧
    alook regD.id_to_signature 1 = some ⟨SD, 1, 0, true⟩ := by
  refine ⟨eval_collect_vDouble, ?_, ?_, ?_⟩ <;> simp [regD, alook]

/-- C4 (amended): the parent-count bump performed when a shape is newly
created adds, to every registered id `c`, exactly the number of the new
shape's direct child slots that hold `ContainerRef(c)` — counted with
multiplicity, so a single new parent can contribute more than 1; and
`get_or_create_id` itself (the only registry operation on the hit path,
where no bump loop runs) never changes any entry's `parent_count`. -/
theorem C4_parent_count_amended :
    (∀ (types : List TypeSignature) (reg reg' : SignatureRegistry)
      (c : Nat) (e : SignatureRegistryEntry),
      bump_parents types reg = some reg' →
      alook reg.id_to_signature c = some e →
      ∃ e', alook reg'.id_to_signature c = some e' ∧
        e'.parent_count = e.parent_count + types.count (.Container c) ∧
        e'.signature = e.signature ∧ e'.count = e.count ∧
        e'.appears_top_level = e.appears_top_level) ∧
    (∀ (reg : SignatureRegistry) (sig : ContainerSignature) (tl b : Bool)
      (id : Nat) (reg' : SignatureRegistry) (c : Nat)
      (e : SignatureRegistryEntry),
      get_or_create_id reg sig tl = some ((b, id), reg') →
      alook reg.id_to_signature c = some e →
      ∃ e', alook reg'.id_to_signature c = some e' ∧
        e'.parent_count = e.parent_count ∧ e'.signature = e.signature) :=
  ⟨fun types reg reg' c e h he => bump_parents_data types reg reg' h c e he,
   fun reg sig tl b id reg' c e h he =>
     get_or_create_id_parent_data reg sig tl b id reg' h c e he⟩

theorem C4_witness :
    (∃ e', alook regXYb.id_to_signature 0 = some e' ∧
      e'.parent_count = 0 +
        ([TypeSignature.Container 0, .Container 0].count (.Container 0)) ∧
      e'.signature = SXY ∧ e'.count = 1 ∧ e'.appears_top_level = true) ∧
    (∃ e', alook (regXY 2).id_to_signature 0 = some e' ∧
      e'.parent_count = 0 ∧ e'.signature = SXY) := by
  constructor
  · exact C4_parent_count_amended.1 [.Container 0, .Container 0] (regXY 1)
      regXYb 0 ⟨SXY, 1, 0, true⟩ eval_bump_double (by simp [regXY, alook])
  · exact C4_parent_count_amended.2 (regXY 1) SXY true true 0 (regXY 2) 0
      ⟨SXY, 1, 0, true⟩ eval_gcid_hit (by simp [regXY, alook])

/-! ## Well-formedness machinery -/

mutual

/-- All `Container` ids occurring (at any depth, through `Verbatim`) in a
type signature are below `bound` and present in the entry map `m`. -/
def tsRefsOK (m : List (Nat × SignatureRegistryEntry)) (bound : Nat) :
    TypeSignature → Bool
  | .Container id => decide (id < bound) && (alook m id).isSome
  | .Verbatim sig => csRefsOK m bound sig
  | _ => true
termination_by t => sizeOf t

/-- All `Container` ids occurring in a container shape are below `bound` and
present in `m`. -/
def csRefsOK (m : List (Nat × SignatureRegistryEntry)) (bound : Nat) :
    ContainerSignature → Bool
  | .Struct fields => fieldsRefsOK m bound fields
  | .List elements => elemsRefsOK m bound elements
  | .SExp elements => elemsRefsOK m bound elements
termination_by s => sizeOf s

/-- `tsRefsOK` over a field list. -/
def fieldsRefsOK (m : List (Nat × SignatureRegistryEntry)) (bound : Nat) :
    List (String × TypeSignature) → Bool
  | [] => true
  | (_, t) :: rest => tsRefsOK m bound t && fieldsRefsOK m bound rest
termination_by l => sizeOf l

/-- `tsRefsOK` over an element list. -/
def elemsRefsOK (m : List (Nat × SignatureRegistryEntry)) (bound : Nat) :
    List TypeSignature → Bool
  | [] => true
  | t :: rest => tsRefsOK m bound t && elemsRefsOK m bound rest
termination_by l => sizeOf l

end

mutual

theorem tsRefsOK_mono (m m' : List (Nat × SignatureRegistryEntry))
    (b b' : Nat) (hb : b ≤ b')
    (hm : ∀ id, (alook m id).isSome = true → (alook m' id).isSome = true) :
    ∀ t : TypeSignature, tsRefsOK m b t = true → tsRefsOK m' b' t = true
  | .Container id => by
    simp only [tsRefsOK, Bool.and_eq_true, decide_eq_true_eq]
    exact fun ⟨h1, h2⟩ => ⟨Nat.lt_of_lt_of_le h1 hb, hm id h2⟩
  | .Verbatim sig => by
    simpa only [tsRefsOK] using csRefsOK_mono m m' b b' hb hm sig
  | .Null => by simp [tsRefsOK]
  | .Bool => by simp [tsRefsOK]
  | .Int => by simp [tsRefsOK]
  | .Float => by simp [tsRefsOK]
  | .Decimal => by simp [tsRefsOK]
  | .Timestamp => by simp [tsRefsOK]
  | .String => by simp [tsRefsOK]
  | .Symbol => by simp [tsRefsOK]
  | .Blob => by simp [tsRefsOK]
  | .Clob => by simp [tsRefsOK]
termination_by t => sizeOf t

theorem csRefsOK_mono (m m' : List (Nat × SignatureRegistryEntry))
    (b b' : Nat) (hb : b ≤ b')
    (hm : ∀ id, (alook m id).isSome = true → (alook m' id).isSome = true) :
    ∀ s : ContainerSignature, csRefsOK m b s = true → csRefsOK m' b' s = true
  | .Struct fields => by
    simpa only [csRefsOK] using fieldsRefsOK_mono m m' b b' hb hm fields
  | .List elements => by
    simpa only [csRefsOK] using elemsRefsOK_mono m m' b b' hb hm elements
  | .SExp elements => by
    simpa only [csRefsOK] using elemsRefsOK_mono m m' b b' hb hm elements
termination_by s => sizeOf s

theorem fieldsRefsOK_mono (m m' : List (Nat × SignatureRegistryEntry))
    (b b' : Nat) (hb : b ≤ b')
    (hm : ∀ id, (alook m id).isSome = true → (alook m' id).isSome = true) :
    ∀ l : List (String × TypeSignature),
      fieldsRefsOK m b l = true → fieldsRefsOK m' b' l = true
  | [] => by simp [fieldsRefsOK]
  | (n, t) :: rest => by
    simp only [fieldsRefsOK, Bool.and_eq_true]
    exact fun ⟨h1, h2⟩ => ⟨tsRefsOK_mono m m' b b' hb hm t h1,
      fieldsRefsOK_mono m m' b b' hb hm rest h2⟩
termination_by l => sizeOf l

theorem elemsRefsOK_mono (m m' : List (Nat × SignatureRegistryEntry))
    (b b' : Nat) (hb : b ≤ b')
    (hm : ∀ id, (alook m id).isSome = true → (alook m' id).isSome = true) :
    ∀ l : List TypeSignature,
      elemsRefsOK m b l = true → elemsRefsOK m' b' l = true
  | [] => by simp [elemsRefsOK]
  | t :: rest => by
    simp only [elemsRefsOK, Bool.and_eq_true]
    exact fun ⟨h1, h2⟩ => ⟨tsRefsOK_mono m m' b b' hb hm t h1,
      elemsRefsOK_mono m m' b b' hb hm rest h2⟩
termination_by l => sizeOf l

end

theorem fieldsRefsOK_forall (m : List (Nat × SignatureRegistryEntry))
    (b : Nat) (l : List (String × TypeSignature)) :
    fieldsRefsOK m b l = true ↔ ∀ p ∈ l, tsRefsOK m b p.2 = true := by
  induction l with
  | nil => simp [fieldsRefsOK]
  | cons p rest ih =>
    obtain ⟨n, t⟩ := p
    simp [fieldsRefsOK, ih]

theorem elemsRefsOK_forall (m : List (Nat × SignatureRegistryEntry))
    (b : Nat) (l : List TypeSignature) :
    elemsRefsOK m b l = true ↔ ∀ t ∈ l, tsRefsOK m b t = true := by
  induction l with
  | nil => simp [elemsRefsOK]
  | cons t rest ih => simp [elemsRefsOK, ih]

theorem insertField_perm (x : String × TypeSignature)
    (l : List (String × TypeSignature)) : (insertField x l).Perm (x :: l) := by
  induction l with
  | nil => simp [insertField]
  | cons y rest ih =>
    by_cases hx : x.1 ≤ y.1
    · simp [insertField, hx]
    · simp only [insertField, hx, if_false]
      exact (ih.cons y).trans (List.Perm.swap x y rest)

theorem sortFields_perm (l : List (String × TypeSignature)) :
    (sortFields l).Perm l := by
  induction l with
  | nil => simp [sortFields]
  | cons x rest ih =>
    exact (insertField_perm x (sortFields rest)).trans (ih.cons x)

/-- The per-entry reference invariant of an entry map: each entry's shape
only references ids strictly below the entry's own id, and those ids are
present. -/
def MapRefsOK (reg : SignatureRegistry) : Prop :=
  ∀ p ∈ reg.id_to_signature,
    csRefsOK reg.id_to_signature p.1 p.2.signature = true

mutual

theorem csSize_isSome (fuel : Nat) (reg : SignatureRegistry)
    (hmap : MapRefsOK reg) :
    ∀ s : ContainerSignature, csRefsOK reg.id_to_signature fuel s = true →
      (ContainerSignature.size fuel reg s).isSome = true
  | .Struct fields => fun h => by
    have hf := fieldsSize_isSome fuel reg hmap fields
      (by simpa [csRefsOK] using h)
    simp only [ContainerSignature.size]
    obtain ⟨k, hk⟩ := Option.isSome_iff_exists.mp hf
    simp [hk]
  | .List elements => fun h => by
    have hf := elemsSize_isSome fuel reg hmap elements
      (by simpa [csRefsOK] using h)
    simp only [ContainerSignature.size]
    obtain ⟨k, hk⟩ := Option.isSome_iff_exists.mp hf
    simp [hk]
  | .SExp elements => fun h => by
    have hf := elemsSize_isSome fuel reg hmap elements
      (by simpa [csRefsOK] using h)
    simp only [ContainerSignature.size]
    obtain ⟨k, hk⟩ := Option.isSome_iff_exists.mp hf
    simp [hk]
termination_by s => (fuel, sizeOf s)

theorem tsSize_isSome (fuel : Nat) (reg : SignatureRegistry)
    (hmap : MapRefsOK reg) :
    ∀ t : TypeSignature, tsRefsOK reg.id_to_signature fuel t = true →
      (TypeSignature.container_size fuel reg t).isSome = true
  | .Container id => fun h => by
    simp only [tsRefsOK, Bool.and_eq_true, decide_eq_true_eq] at h
    obtain ⟨hlt, hsome⟩ := h
    cases fuel with
    | zero => omega
    | succ f =>
      obtain ⟨e, he⟩ := Option.isSome_iff_exists.mp hsome
      rw [TypeSignature.container_size.eq_def]
      simp only [he]
      exact csSize_isSome f reg hmap e.signature
        (csRefsOK_mono _ _ _ _ (by omega) (fun _ hx => hx) _
          (hmap (id, e) (alook_mem he)))
  | .Verbatim sig => fun h => by
    simp only [TypeSignature.container_size]
    exact csSize_isSome fuel reg hmap sig (by simpa [tsRefsOK] using h)
  | .Null => fun _ => by simp [TypeSignature.container_size]
  | .Bool => fun _ => by simp [TypeSignature.container_size]
  | .Int => fun _ => by simp [TypeSignature.container_size]
  | .Float => fun _ => by simp [TypeSignature.container_size]
  | .Decimal => fun _ => by simp [TypeSignature.container_size]
  | .Timestamp => fun _ => by simp [TypeSignature.container_size]
  | .String => fun _ => by simp [TypeSignature.container_size]
  | .Symbol => fun _ => by simp [TypeSignature.container_size]
  | .Blob => fun _ => by simp [TypeSignature.container_size]
  | .Clob => fun _ => by simp [TypeSignature.container_size]
termination_by t => (fuel, sizeOf t)

theorem fieldsSize_isSome (fuel : Nat) (reg : SignatureRegistry)
    (hmap : MapRefsOK reg) :
    ∀ l : List (String × TypeSignature),
      fieldsRefsOK reg.id_to_signature fuel l = true →
      (sizeFields fuel reg l).isSome = true
  | [] => fun _ => by simp [sizeFields]
  | (n, t) :: rest => fun h => by
    simp only [fieldsRefsOK, Bool.and_eq_true] at h
    have h1 := tsSize_isSome fuel reg hmap t h.1
    have h2 := fieldsSize_isSome fuel reg hmap rest h.2
    obtain ⟨a, ha⟩ := Option.isSome_iff_exists.mp h1
    obtain ⟨b, hb⟩ := Option.isSome_iff_exists.mp h2
    simp [sizeFields, ha, hb]
termination_by l => (fuel, sizeOf l)

theorem elemsSize_isSome (fuel : Nat) (reg : SignatureRegistry)
    (hmap : MapRefsOK reg) :
    ∀ l : List TypeSignature,
      elemsRefsOK reg.id_to_signature fuel l = true →
      (sizeElems fuel reg l).isSome = true
  | [] => fun _ => by simp [sizeElems]
  | t :: rest => fun h => by
    simp only [elemsRefsOK, Bool.and_eq_true] at h
    have h1 := tsSize_isSome fuel reg hmap t h.1
    have h2 := elemsSize_isSome fuel reg hmap rest h.2
    obtain ⟨a, ha⟩ := Option.isSome_iff_exists.mp h1
    obtain ⟨b, hb⟩ := Option.isSome_iff_exists.mp h2
    simp [sizeElems, ha, hb]
termination_by l => (fuel, sizeOf l)

end

/-- The entry-preservation core of registry extension: every id keeps an
entry with the same signature. -/
def EntriesExt (reg reg' : SignatureRegistry) : Prop :=
  ∀ id e, alook reg.id_to_signature id = some e →
    ∃ e', alook reg'.id_to_signature id = some e' ∧ e'.signature = e.signature

mutual

theorem csSize_ext_mono (fuel fuel' : Nat) (hf : fuel ≤ fuel')
    (reg reg' : SignatureRegistry) (hext : EntriesExt reg reg') :
    ∀ (s : ContainerSignature) (n : Nat),
      ContainerSignature.size fuel reg s = some n →
      ContainerSignature.size fuel' reg' s = some n
  | .Struct fields => fun n h => by
    simp only [ContainerSignature.size] at h ⊢
    cases hs : sizeFields fuel reg fields with
    | none => rw [hs] at h; exact Option.noConfusion h
    | some k =>
      rw [hs] at h
      rw [fieldsSize_ext_mono fuel fuel' hf reg reg' hext fields k hs]
      exact h
  | .List elements => fun n h => by
    simp only [ContainerSignature.size] at h ⊢
    cases hs : sizeElems fuel reg elements with
    | none => rw [hs] at h; exact Option.noConfusion h
    | some k =>
      rw [hs] at h
      rw [elemsSize_ext_mono fuel fuel' hf reg reg' hext elements k hs]
      exact h
  | .SExp elements => fun n h => by
    simp only [ContainerSignature.size] at h ⊢
    cases hs : sizeElems fuel reg elements with
    | none => rw [hs] at h; exact Option.noConfusion h
    | some k =>
      rw [hs] at h
      rw [elemsSize_ext_mono fuel fuel' hf reg reg' hext elements k hs]
      exact h
termination_by s => (fuel, sizeOf s)

theorem tsSize_ext_mono (fuel fuel' : Nat) (hf : fuel ≤ fuel')
    (reg reg' : SignatureRegistry) (hext : EntriesExt reg reg') :
    ∀ (t : TypeSignature) (n : Nat),
      TypeSignature.container_size fuel reg t = some n →
      TypeSignature.container_size fuel' reg' t = some n
  | .Container id => fun n h => by
    cases fuel with
    | zero => simp [TypeSignature.container_size] at h
    | succ f =>
      cases he : alook reg.id_to_signature id with
      | none => simp [TypeSignature.container_size, he] at h
      | some e =>
        rw [TypeSignature.container_size.eq_def] at h
        simp only [he] at h
        obtain ⟨e', he', hsig⟩ := hext id e he
        cases fuel' with
        | zero => omega
        | succ f' =>
          rw [TypeSignature.container_size.eq_def]
          simp only [he', hsig]
          exact csSize_ext_mono f f' (by omega) reg reg' hext e.signature n h
  | .Verbatim sig => fun n h => by
    simp only [TypeSignature.container_size] at h ⊢
    exact csSize_ext_mono fuel fuel' hf reg reg' hext sig n h
  | .Null => fun n h => by simpa [TypeSignature.container_size] using h
  | .Bool => fun n h => by simpa [TypeSignature.container_size] using h
  | .Int => fun n h => by simpa [TypeSignature.container_size] using h
  | .Float => fun n h => by simpa [TypeSignature.container_size] using h
  | .Decimal => fun n h => by simpa [TypeSignature.container_size] using h
  | .Timestamp => fun n h => by simpa [TypeSignature.container_size] using h
  | .String => fun n h => by simpa [TypeSignature.container_size] using h
  | .Symbol => fun n h => by simpa [TypeSignature.container_size] using h
  | .Blob => fun n h => by simpa [TypeSignature.container_size] using h
  | .Clob => fun n h => by simpa [TypeSignature.container_size] using h
termination_by t => (fuel, sizeOf t)

theorem fieldsSize_ext_mono (fuel fuel' : Nat) (hf : fuel ≤ fuel')
    (reg reg' : SignatureRegistry) (hext : EntriesExt reg reg') :
    ∀ (l : List (String × TypeSignature)) (n : Nat),
      sizeFields fuel reg l = some n → sizeFields fuel' reg' l = some n
  | [] => fun n h => by simpa [sizeFields] using h
  | (nm, t) :: rest => fun n h => by
    simp only [sizeFields] at h ⊢
    cases ha : TypeSignature.container_size fuel reg t with
    | none => rw [ha] at h; exact Option.noConfusion h
    | some a =>
      rw [ha] at h
      cases hb : sizeFields fuel reg rest with
      | none => rw [hb] at h; exact Option.noConfusion h
      | some b =>
        rw [hb] at h
        rw [tsSize_ext_mono fuel fuel' hf reg reg' hext t a ha,
          fieldsSize_ext_mono fuel fuel' hf reg reg' hext rest b hb]
        exact h
termination_by l => (fuel, sizeOf l)

theorem elemsSize_ext_mono (fuel fuel' : Nat) (hf : fuel ≤ fuel')
    (reg reg' : SignatureRegistry) (hext : EntriesExt reg reg') :
    ∀ (l : List TypeSignature) (n : Nat),
      sizeElems fuel reg l = some n → sizeElems fuel' reg' l = some n
  | [] => fun n h => by simpa [sizeElems] using h
  | t :: rest => fun n h => by
    simp only [sizeElems] at h ⊢
    cases ha : TypeSignature.container_size fuel reg t with
    | none => rw [ha] at h; exact Option.noConfusion h
    | some a =>
      rw [ha] at h
      cases hb : sizeElems fuel reg rest with
      | none => rw [hb] at h; exact Option.noConfusion h
      | some b =>
        rw [hb] at h
        rw [tsSize_ext_mono fuel fuel' hf reg reg' hext t a ha,
          elemsSize_ext_mono fuel fuel' hf reg reg' hext rest b hb]
        exact h
termination_by l => (fuel, sizeOf l)

end

/-- Registry well-formedness, maintained throughout collection: distinct ids;
ids below the counter; every entry's shape references only smaller, present
ids; and the two maps are mutually consistent (each entry's shape indexes
back to its id, and every index binding points at an entry carrying exactly
that shape). -/
def WF (reg : SignatureRegistry) : Prop :=
  (reg.id_to_signature.map Prod.fst).Nodup ∧
  (∀ p ∈ reg.id_to_signature, p.1 < reg.next_id) ∧
  MapRefsOK reg ∧
  (∀ p ∈ reg.id_to_signature,
    alook reg.signature_to_id p.2.signature = some p.1) ∧
  (∀ q ∈ reg.signature_to_id,
    ∃ e, alook reg.id_to_signature q.2 = some e ∧ e.signature = q.1)

/-- Registry extension: the id counter is monotone, established shape→id
bindings persist, and every entry persists with its signature intact.  Every
collection step is an extension. -/
def RegExt (reg reg' : SignatureRegistry) : Prop :=
  reg.next_id ≤ reg'.next_id ∧
  (∀ s id, alook reg.signature_to_id s = some id →
    alook reg'.signature_to_id s = some id) ∧
  EntriesExt reg reg'

theorem RegExt_refl (reg : SignatureRegistry) : RegExt reg reg :=
  ⟨Nat.le_refl _, fun _ _ h => h, fun _ e h => ⟨e, h, rfl⟩⟩

theorem RegExt_trans {r₁ r₂ r₃ : SignatureRegistry} (h₁ : RegExt r₁ r₂)
    (h₂ : RegExt r₂ r₃) : RegExt r₁ r₃ := by
  refine ⟨Nat.le_trans h₁.1 h₂.1, fun s id h => h₂.2.1 s id (h₁.2.1 s id h), ?_⟩
  intro id e h
  obtain ⟨e', he', hs'⟩ := h₁.2.2 id e h
  obtain ⟨e'', he'', hs''⟩ := h₂.2.2 id e' he'
  exact ⟨e'', he'', hs''.trans hs'⟩

theorem RegExt_presence {r₁ r₂ : SignatureRegistry} (h : RegExt r₁ r₂) :
    ∀ id, (alook r₁.id_to_signature id).isSome = true →
      (alook r₂.id_to_signature id).isSome = true := by
  intro id hs
  obtain ⟨e, he⟩ := Option.isSome_iff_exists.mp hs
  obtain ⟨e', he', -⟩ := h.2.2 id e he
  simp [he']

theorem WF_new : WF SignatureRegistry.new := by
  refine ⟨by simp [SignatureRegistry.new], ?_, ?_, ?_, ?_⟩ <;>
    simp [SignatureRegistry.new, MapRefsOK]

theorem alook_aupd_isSome {α β : Type} [DecidableEq α] (l : List (α × β))
    (k : α) (f : β → β) (id : α) :
    (alook (aupd l k f) id).isSome = (alook l id).isSome := by
  by_cases hk : id = k
  · subst hk; rw [alook_aupd_self]; cases alook l id <;> simp
  · rw [alook_aupd_ne _ _ hk]

theorem aupd_mem {α β : Type} [DecidableEq α] {l : List (α × β)} {k : α}
    {f : β → β} {p' : α × β} (h : p' ∈ aupd l k f) :
    ∃ p ∈ l, p'.1 = p.1 ∧ (p'.2 = p.2 ∨ p'.2 = f p.2) := by
  obtain ⟨p, hp, hpe⟩ := List.mem_map.mp h
  by_cases hk : p.1 = k
  · rw [if_pos hk] at hpe
    exact ⟨p, hp, by rw [← hpe], Or.inr (by rw [← hpe])⟩
  · rw [if_neg hk] at hpe
    exact ⟨p, hp, by rw [← hpe], Or.inl (by rw [← hpe])⟩

theorem WF_aupd (reg : SignatureRegistry) (k : Nat)
    (f : SignatureRegistryEntry → SignatureRegistryEntry)
    (hf : ∀ e, (f e).signature = e.signature) (hw : WF reg) :
    WF { reg with id_to_signature := aupd reg.id_to_signature k f } ∧
    RegExt reg { reg with id_to_signature := aupd reg.id_to_signature k f } := by
  obtain ⟨hnd, hlt, hmap, hsi, his⟩ := hw
  constructor
  · refine ⟨by rw [aupd_keys]; exact hnd, ?_, ?_, ?_, ?_⟩
    · intro p' hp'
      obtain ⟨p, hp, hk1, -⟩ := aupd_mem hp'
      rw [hk1]
      exact hlt p hp
    · intro p' hp'
      obtain ⟨p, hp, hk1, hk2⟩ := aupd_mem hp'
      have hsig : p'.2.signature = p.2.signature := by
        rcases hk2 with h2 | h2 <;> rw [h2]
        exact hf p.2
      rw [hsig, hk1]
      exact csRefsOK_mono _ _ _ _ (Nat.le_refl _)
        (fun id hx => by rwa [alook_aupd_isSome]) _ (hmap p hp)
    · intro p' hp'
      obtain ⟨p, hp, hk1, hk2⟩ := aupd_mem hp'
      have hsig : p'.2.signature = p.2.signature := by
        rcases hk2 with h2 | h2 <;> rw [h2]
        exact hf p.2
      rw [hsig, hk1]
      exact hsi p hp
    · intro q hq
      obtain ⟨e, he, hes⟩ := his q hq
      by_cases hk : q.2 = k
      · subst hk
        refine ⟨f e, ?_, by rw [hf]; exact hes⟩
        rw [alook_aupd_self, he]
        rfl
      · exact ⟨e, by rw [alook_aupd_ne _ _ hk]; exact he, hes⟩
  · refine ⟨Nat.le_refl _, fun s id h => h, ?_⟩
    intro id e he
    by_cases hk : id = k
    · subst hk
      refine ⟨f e, ?_, hf e⟩
      rw [alook_aupd_self, he]
      rfl
    · exact ⟨e, by rw [alook_aupd_ne _ _ hk]; exact he, rfl⟩

theorem alook_append_isSome {α β : Type} [DecidableEq α]
    {l₁ : List (α × β)} (l₂ : List (α × β)) {k : α}
    (h : (alook l₁ k).isSome = true) : (alook (l₁ ++ l₂) k).isSome = true := by
  obtain ⟨v, hv⟩ := Option.isSome_iff_exists.mp h
  rw [alook_append_left l₂ hv]
  rfl

theorem get_or_create_id_WF (reg : SignatureRegistry)
    (sig : ContainerSignature) (tl : Bool) (hw : WF reg)
    (hrefs : csRefsOK reg.id_to_signature reg.next_id sig = true) :
    ∃ b id reg', get_or_create_id reg sig tl = some ((b, id), reg') ∧
      WF reg' ∧ RegExt reg reg' ∧
      alook reg'.signature_to_id sig = some id ∧ id < reg'.next_id ∧
      (∃ e', alook reg'.id_to_signature id = some e' ∧ e'.signature = sig) := by
  obtain ⟨hnd, hlt, hmap, hsi, his⟩ := hw
  cases hs : alook reg.signature_to_id sig with
  | some i =>
    obtain ⟨e, he, hes⟩ := his (sig, i) (alook_mem hs)
    obtain ⟨hw', hext'⟩ := WF_aupd reg i
      (fun e => { e with count := e.count + 1, appears_top_level := e.appears_top_level || tl })
      (fun e => rfl) ⟨hnd, hlt, hmap, hsi, his⟩
    refine ⟨true, i, _, ?_, hw', hext', hs, hlt (i, e) (alook_mem he), ?_⟩
    · simp only [get_or_create_id, hs, he]
    · refine ⟨{ e with count := e.count + 1, appears_top_level := e.appears_top_level || tl }, ?_, hes⟩
      show alook (aupd reg.id_to_signature i
        (fun e => { e with count := e.count + 1, appears_top_level := e.appears_top_level || tl })) i =
        some { e with count := e.count + 1, appears_top_level := e.appears_top_level || tl }
      rw [alook_aupd_self, he]
      rfl
  | none =>
    have hnotin : reg.next_id ∉ reg.id_to_signature.map Prod.fst := by
      intro hin
      obtain ⟨p, hp, hpe⟩ := List.mem_map.mp hin
      have := hlt p hp
      omega
    have hid_none : alook reg.id_to_signature reg.next_id = none :=
      (alook_eq_none_iff _ _).mpr hnotin
    refine ⟨false, reg.next_id,
      ⟨reg.id_to_signature ++ [(reg.next_id, ⟨sig, 1, 0, tl⟩)],
       reg.signature_to_id ++ [(sig, reg.next_id)], reg.next_id + 1⟩,
      ?_, ?_, ?_, ?_, ?_, ?_⟩
    · simp only [get_or_create_id, hs]
    · refine ⟨?_, ?_, ?_, ?_, ?_⟩
      · simp only [List.map_append, List.map_cons, List.map_nil]
        rw [List.nodup_append]
        exact ⟨hnd, List.nodup_singleton _,
          fun a ha hb => by simp at hb; subst hb; exact hnotin ha⟩
      · intro p hp
        rcases List.mem_append.mp hp with h1 | h1
        · have := hlt p h1; simp; omega
        · simp at h1; subst h1; simp
      · intro p hp
        rcases List.mem_append.mp hp with h1 | h1
        · exact csRefsOK_mono _ _ _ _ (Nat.le_refl _)
            (fun id hx => alook_append_isSome _ hx) _ (hmap p h1)
        · simp at h1; subst h1
          exact csRefsOK_mono _ _ _ _ (Nat.le_refl _)
            (fun id hx => alook_append_isSome _ hx) _ hrefs
      · intro p hp
        rcases List.mem_append.mp hp with h1 | h1
        · exact alook_append_left _ (hsi p h1)
        · simp at h1; subst h1
          rw [alook_append_none _ hs]
          simp [alook]
      · intro q hq
        rcases List.mem_append.mp hq with h1 | h1
        · obtain ⟨e, he, hes⟩ := his q h1
          exact ⟨e, alook_append_left _ he, hes⟩
        · simp at h1; subst h1
          refine ⟨⟨sig, 1, 0, tl⟩, ?_, rfl⟩
          rw [alook_append_none _ hid_none]
          simp [alook]
    · refine ⟨Nat.le_succ _, ?_, ?_⟩
      · intro s id h
        exact alook_append_left _ h
      · intro id e he
        exact ⟨e, alook_append_left _ he, rfl⟩
    · rw [alook_append_none _ hs]
      simp [alook]
    · simp
    · refine ⟨⟨sig, 1, 0, tl⟩, ?_, rfl⟩
      rw [alook_append_none _ hid_none]
      simp [alook]

theorem bump_parents_WF (types : List TypeSignature) :
    ∀ reg : SignatureRegistry, WF reg →
    (∀ id, TypeSignature.Container id ∈ types →
      (alook reg.id_to_signature id).isSome = true) →
    ∃ reg', bump_parents types reg = some reg' ∧ WF reg' ∧ RegExt reg reg' := by
  induction types with
  | nil =>
    intro reg hw _
    exact ⟨reg, by simp [bump_parents], hw, RegExt_refl reg⟩
  | cons t rest ih =>
    intro reg hw hpres
    by_cases hex : ∃ c₀, t = TypeSignature.Container c₀
    · obtain ⟨c₀, rfl⟩ := hex
      have hsome : (alook reg.id_to_signature c₀).isSome = true :=
        hpres c₀ (List.mem_cons_self _ _)
      obtain ⟨e, he⟩ := Option.isSome_iff_exists.mp hsome
      obtain ⟨hw₁, hext₁⟩ := WF_aupd reg c₀
        (fun e => { e with parent_count := e.parent_count + 1 })
        (fun e => rfl) hw
      obtain ⟨reg', hb, hw', hext'⟩ := ih _ hw₁ (fun id hin => by
        show (alook (aupd reg.id_to_signature c₀
          (fun e => { e with parent_count := e.parent_count + 1 })) id).isSome = true
        rw [alook_aupd_isSome]
        exact hpres id (List.mem_cons_of_mem _ hin))
      refine ⟨reg', ?_, hw', RegExt_trans hext₁ hext'⟩
      simp only [bump_parents, he]
      exact hb
    · have hstep : bump_parents (t :: rest) reg = bump_parents rest reg := by
        cases t with
        | Container c₀ => exact absurd ⟨c₀, rfl⟩ hex
        | _ => simp [bump_parents]
      obtain ⟨reg', hb, hw', hext'⟩ := ih reg hw
        (fun id hin => hpres id (List.mem_cons_of_mem _ hin))
      exact ⟨reg', hstep ▸ hb, hw', hext'⟩

theorem WF_MapRefsOK {reg : SignatureRegistry} (hw : WF reg) : MapRefsOK reg :=
  hw.2.2.1

mutual

theorem collect_signatures_WF :
    ∀ (v : IonValue) (reg : SignatureRegistry) (m : Nat) (t : Bool),
      WF reg →
      ∃ ts reg', collect_signatures v reg m t = some (ts, reg') ∧ WF reg' ∧
        RegExt reg reg' ∧
        tsRefsOK reg'.id_to_signature reg'.next_id ts = true
  | .null, reg, m, t => fun hw =>
    ⟨.Null, reg, by simp [collect_signatures], hw, RegExt_refl reg, by simp [tsRefsOK]⟩
  | .bool, reg, m, t => fun hw =>
    ⟨.Bool, reg, by simp [collect_signatures], hw, RegExt_refl reg, by simp [tsRefsOK]⟩
  | .int, reg, m, t => fun hw =>
    ⟨.Int, reg, by simp [collect_signatures], hw, RegExt_refl reg, by simp [tsRefsOK]⟩
  | .float, reg, m, t => fun hw =>
    ⟨.Float, reg, by simp [collect_signatures], hw, RegExt_refl reg, by simp [tsRefsOK]⟩
  | .decimal, reg, m, t => fun hw =>
    ⟨.Decimal, reg, by simp [collect_signatures], hw, RegExt_refl reg, by simp [tsRefsOK]⟩
  | .timestamp, reg, m, t => fun hw =>
    ⟨.Timestamp, reg, by simp [collect_signatures], hw, RegExt_refl reg, by simp [tsRefsOK]⟩
  | .string, reg, m, t => fun hw =>
    ⟨.String, reg, by simp [collect_signatures], hw, RegExt_refl reg, by simp [tsRefsOK]⟩
  | .symbol, reg, m, t => fun hw =>
    ⟨.Symbol, reg, by simp [collect_signatures], hw, RegExt_refl reg, by simp [tsRefsOK]⟩
  | .blob, reg, m, t => fun hw =>
    ⟨.Blob, reg, by simp [collect_signatures], hw, RegExt_refl reg, by simp [tsRefsOK]⟩
  | .clob, reg, m, t => fun hw =>
    ⟨.Clob, reg, by simp [collect_signatures], hw, RegExt_refl reg, by simp [tsRefsOK]⟩
  | .struct s, reg, m, t => fun hw => by
    obtain ⟨fs, reg₁, hcf, hw₁, hext₁, hrefs₁⟩ := collectFields_WF s reg m hw
    have hsorted : fieldsRefsOK reg₁.id_to_signature reg₁.next_id
        (sortFields fs) = true := by
      rw [fieldsRefsOK_forall] at hrefs₁ ⊢
      exact fun p hp => hrefs₁ p ((sortFields_perm fs).subset hp)
    have hcsrefs : csRefsOK reg₁.id_to_signature reg₁.next_id
        (.Struct (sortFields fs)) = true := by
      simpa [csRefsOK] using hsorted
    have hsz := csSize_isSome (reg₁.next_id + 1) reg₁ (WF_MapRefsOK hw₁)
      (.Struct (sortFields fs))
      (csRefsOK_mono _ _ _ _ (Nat.le_succ _) (fun _ hx => hx) _ hcsrefs)
    obtain ⟨n, hn⟩ := Option.isSome_iff_exists.mp hsz
    by_cases hmn : m ≤ n
    · obtain ⟨b, id, reg₂, hg, hw₂, hext₂, hsid, hidlt, e', he', hes⟩ :=
        get_or_create_id_WF reg₁ (.Struct (sortFields fs)) t hw₁ hcsrefs
      cases b with
      | true =>
        refine ⟨.Container id, reg₂, ?_, hw₂, RegExt_trans hext₁ hext₂, ?_⟩
        · simp only [collect_signatures, hcf]
          simp [hn, hg, hmn]
        · simp only [tsRefsOK, Bool.and_eq_true, decide_eq_true_eq]
          exact ⟨hidlt, by simp [he']⟩
      | false =>
        have hpres : ∀ cid, TypeSignature.Container cid ∈
            (sortFields fs).map Prod.snd →
            (alook reg₂.id_to_signature cid).isSome = true := by
          intro cid hin
          obtain ⟨p, hp, hpe⟩ := List.mem_map.mp hin
          rw [fieldsRefsOK_forall] at hsorted
          have := hsorted p hp
          rw [hpe] at this
          simp only [tsRefsOK, Bool.and_eq_true, decide_eq_true_eq] at this
          exact RegExt_presence hext₂ cid this.2
        obtain ⟨reg₃, hbump, hw₃, hext₃⟩ :=
          bump_parents_WF ((sortFields fs).map Prod.snd) reg₂ hw₂ hpres
        refine ⟨.Container id, reg₃, ?_,
          hw₃, RegExt_trans hext₁ (RegExt_trans hext₂ hext₃), ?_⟩
        · simp only [collect_signatures, hcf]
          simp [hn, hg, hmn, hbump]
        · simp only [tsRefsOK, Bool.and_eq_true, decide_eq_true_eq]
          refine ⟨Nat.lt_of_lt_of_le hidlt hext₃.1, ?_⟩
          exact RegExt_presence hext₃ id (by simp [he'])
    · refine ⟨.Verbatim (.Struct (sortFields fs)), reg₁, ?_, hw₁, hext₁, ?_⟩
      · simp only [collect_signatures, hcf]
        simp [hn, hmn]
      · simpa [tsRefsOK] using hcsrefs
  | .list l, reg, m, t => fun hw => by
    have hctor : ∀ (mm : List (Nat × SignatureRegistryEntry)) (b : Nat)
        (els : List TypeSignature),
        csRefsOK mm b (ContainerSignature.List els) = elemsRefsOK mm b els := by
      intro mm b els; simp [csRefsOK]
    obtain ⟨ts, reg', h1, h2, h3, h4⟩ :=
      collect_sequence_WF l reg m t ContainerSignature.List hctor hw
    exact ⟨ts, reg', by simpa [collect_signatures] using h1, h2, h3, h4⟩
  | .sexp l, reg, m, t => fun hw => by
    have hctor : ∀ (mm : List (Nat × SignatureRegistryEntry)) (b : Nat)
        (els : List TypeSignature),
        csRefsOK mm b (ContainerSignature.SExp els) = elemsRefsOK mm b els := by
      intro mm b els; simp [csRefsOK]
    obtain ⟨ts, reg', h1, h2, h3, h4⟩ :=
      collect_sequence_WF l reg m t ContainerSignature.SExp hctor hw
    exact ⟨ts, reg', by simpa [collect_signatures] using h1, h2, h3, h4⟩
termination_by v _ _ _ => (sizeOf v, 2)

theorem collect_sequence_WF :
    ∀ (l : List IonValue) (reg : SignatureRegistry) (m : Nat) (t : Bool)
      (ctor : List TypeSignature → ContainerSignature),
      (∀ (mm : List (Nat × SignatureRegistryEntry)) (b : Nat)
        (els : List TypeSignature),
        csRefsOK mm b (ctor els) = elemsRefsOK mm b els) →
      WF reg →
      ∃ ts reg', collect_sequence_signatures l reg m t ctor = some (ts, reg') ∧
        WF reg' ∧ RegExt reg reg' ∧
        tsRefsOK reg'.id_to_signature reg'.next_id ts = true
  | l, reg, m, t, ctor => fun hctor hw => by
    obtain ⟨els, reg₁, hce, hw₁, hext₁, hrefs₁⟩ := collectElems_WF l reg m hw
    have hcsrefs : csRefsOK reg₁.id_to_signature reg₁.next_id (ctor els) = true := by
      rw [hctor]; exact hrefs₁
    have hsz := csSize_isSome (reg₁.next_id + 1) reg₁ (WF_MapRefsOK hw₁) (ctor els)
      (csRefsOK_mono _ _ _ _ (Nat.le_succ _) (fun _ hx => hx) _ hcsrefs)
    obtain ⟨n, hn⟩ := Option.isSome_iff_exists.mp hsz
    by_cases hmn : m ≤ n
    · obtain ⟨b, id, reg₂, hg, hw₂, hext₂, hsid, hidlt, e', he', hes⟩ :=
        get_or_create_id_WF reg₁ (ctor els) t hw₁ hcsrefs
      cases b with
      | true =>
        refine ⟨.Container id, reg₂, ?_, hw₂, RegExt_trans hext₁ hext₂, ?_⟩
        · simp only [collect_sequence_signatures, hce]
          simp [hn, hg, hmn]
        · simp only [tsRefsOK, Bool.and_eq_true, decide_eq_true_eq]
          exact ⟨hidlt, by simp [he']⟩
      | false =>
        have hpres : ∀ cid, TypeSignature.Container cid ∈ els →
            (alook reg₂.id_to_signature cid).isSome = true := by
          intro cid hin
          rw [elemsRefsOK_forall] at hrefs₁
          have := hrefs₁ _ hin
          simp only [tsRefsOK, Bool.and_eq_true, decide_eq_true_eq] at this
          exact RegExt_presence hext₂ cid this.2
        obtain ⟨reg₃, hbump, hw₃, hext₃⟩ := bump_parents_WF els reg₂ hw₂ hpres
        refine ⟨.Container id, reg₃, ?_,
          hw₃, RegExt_trans hext₁ (RegExt_trans hext₂ hext₃), ?_⟩
        · simp only [collect_sequence_signatures, hce]
          simp [hn, hg, hmn, hbump]
        · simp only [tsRefsOK, Bool.and_eq_true, decide_eq_true_eq]
          refine ⟨Nat.lt_of_lt_of_le hidlt hext₃.1, ?_⟩
          exact RegExt_presence hext₃ id (by simp [he'])
    · refine ⟨.Verbatim (ctor els), reg₁, ?_, hw₁, hext₁, ?_⟩
      · simp only [collect_sequence_signatures, hce]
        simp [hn, hmn]
      · simpa [tsRefsOK] using hcsrefs
termination_by l _ _ _ _ => (sizeOf l, 1)

theorem collectFields_WF :
    ∀ (l : List (Option String × IonValue)) (reg : SignatureRegistry) (m : Nat),
      WF reg →
      ∃ fs reg', collectFields l reg m = some (fs, reg') ∧ WF reg' ∧
        RegExt reg reg' ∧
        fieldsRefsOK reg'.id_to_signature reg'.next_id fs = true
  | [], reg, m => fun hw =>
    ⟨[], reg, by simp [collectFields], hw, RegExt_refl reg, by simp [fieldsRefsOK]⟩
  | (nm, v) :: rest, reg, m => fun hw => by
    obtain ⟨ts, reg₁, hc, hw₁, hext₁, hrefs₁⟩ :=
      collect_signatures_WF v reg m false hw
    obtain ⟨fs, reg₂, hcf, hw₂, hext₂, hrefs₂⟩ := collectFields_WF rest reg₁ m hw₁
    refine ⟨(nm.getD "", ts) :: fs, reg₂, ?_, hw₂, RegExt_trans hext₁ hext₂, ?_⟩
    · simp [collectFields, hc, hcf]
    · simp only [fieldsRefsOK, Bool.and_eq_true]
      exact ⟨tsRefsOK_mono _ _ _ _ hext₂.1 (RegExt_presence hext₂) ts hrefs₁,
        hrefs₂⟩
termination_by l _ _ => (sizeOf l, 0)

theorem collectElems_WF :
    ∀ (l : List IonValue) (reg : SignatureRegistry) (m : Nat),
      WF reg →
      ∃ els reg', collectElems l reg m = some (els, reg') ∧ WF reg' ∧
        RegExt reg reg' ∧
        elemsRefsOK reg'.id_to_signature reg'.next_id els = true
  | [], reg, m => fun hw =>
    ⟨[], reg, by simp [collectElems], hw, RegExt_refl reg, by simp [elemsRefsOK]⟩
  | v :: rest, reg, m => fun hw => by
    obtain ⟨ts, reg₁, hc, hw₁, hext₁, hrefs₁⟩ :=
      collect_signatures_WF v reg m false hw
    obtain ⟨els, reg₂, hce, hw₂, hext₂, hrefs₂⟩ := collectElems_WF rest reg₁ m hw₁
    refine ⟨ts :: els, reg₂, ?_, hw₂, RegExt_trans hext₁ hext₂, ?_⟩
    · simp [collectElems, hc, hce]
    · simp only [elemsRefsOK, Bool.and_eq_true]
      exact ⟨tsRefsOK_mono _ _ _ _ hext₂.1 (RegExt_presence hext₂) ts hrefs₁,
        hrefs₂⟩
termination_by l _ _ => (sizeOf l, 0)

end

theorem collect_stream_WF (vs : List IonValue) :
    ∀ (reg : SignatureRegistry) (m : Nat), WF reg →
    ∃ reg', collect_stream vs reg m = some reg' ∧ WF reg' ∧ RegExt reg reg' := by
  induction vs with
  | nil => intro reg m hw; exact ⟨reg, by simp [collect_stream], hw, RegExt_refl reg⟩
  | cons v rest ih =>
    intro reg m hw
    obtain ⟨ts, reg₁, hc, hw₁, hext₁, -⟩ := collect_signatures_WF v reg m true hw
    obtain ⟨reg', hs, hw', hext'⟩ := ih reg₁ m hw₁
    exact ⟨reg', by simp [collect_stream, hc, hs], hw', RegExt_trans hext₁ hext'⟩

theorem get_or_create_id_hit_id {reg : SignatureRegistry}
    {s : ContainerSignature} {tl b : Bool} {i id : Nat}
    {reg' : SignatureRegistry} (hs : alook reg.signature_to_id s = some i)
    (hcall : get_or_create_id reg s tl = some ((b, id), reg')) : id = i := by
  simp only [get_or_create_id, hs] at hcall
  cases hi : alook reg.id_to_signature i with
  | none =>
    simp only [hi] at hcall
    exact Option.noConfusion hcall
  | some e =>
    simp only [hi, Option.some.injEq] at hcall
    have := congrArg (fun x => x.1.2) hcall
    simpa using this.symm

theorem single_parent_ids_nodup {reg : SignatureRegistry}
    (h : (reg.id_to_signature.map Prod.fst).Nodup) :
    (single_parent_ids reg).Nodup := by
  unfold single_parent_ids
  exact (List.Sublist.map Prod.fst (List.filter_sublist _)).nodup h

theorem single_parent_ids_present (reg : SignatureRegistry) :
    ∀ id ∈ single_parent_ids reg,
      (alook reg.id_to_signature id).isSome = true := by
  intro id hid
  unfold single_parent_ids at hid
  obtain ⟨p, hp, hpe⟩ := List.mem_map.mp hid
  rw [alook_isSome_iff]
  exact hpe ▸ List.mem_map.mpr ⟨p, List.mem_of_mem_filter hp, rfl⟩

theorem inline_ids_total (ids : List Nat) :
    ∀ reg : SignatureRegistry, ids.Nodup →
    (∀ id ∈ ids, (alook reg.id_to_signature id).isSome = true) →
    (inline_ids ids reg).isSome = true := by
  induction ids with
  | nil => intro reg _ _; simp [inline_ids]
  | cons i rest ih =>
    intro reg hnd hpres
    obtain ⟨e, he⟩ := Option.isSome_iff_exists.mp (hpres i (List.mem_cons_self _ _))
    rw [inline_ids_cons, he]
    simp only [List.nodup_cons] at hnd
    refine ih _ hnd.2 ?_
    intro id hid
    have hne : id ≠ i := fun hc => hnd.1 (hc ▸ hid)
    show (alook (arem (reg.id_to_signature.map (fun p =>
      (p.1, inlineRewrite i e.signature p.2))) i) id).isSome = true
    rw [alook_arem_ne _ hne, alook_map_snd]
    have := hpres id (List.mem_cons_of_mem _ hid)
    obtain ⟨e', he'⟩ := Option.isSome_iff_exists.mp this
    simp [he']

/-- C9: given a successfully decoded value tree, the core never fails: from
any well-formed registry (in particular the empty one), `collect_signatures`
always returns `some` — every `id_to_signature` lookup inside
`container_size` and every `get_mut(..).unwrap()` finds a present entry, so
the modelled panic branches (`none`) are unreachable — well-formedness is
preserved, and the subsequent inlining pass also always returns `some`. -/
theorem C9_core_totality :
    (∀ (v : IonValue) (reg : SignatureRegistry) (m : Nat) (t : Bool),
      WF reg → (collect_signatures v reg m t).isSome = true) ∧
    (∀ (v : IonValue) (reg : SignatureRegistry) (m : Nat) (t : Bool)
      (ts : TypeSignature) (reg' : SignatureRegistry), WF reg →
      collect_signatures v reg m t = some (ts, reg') → WF reg') ∧
    (∀ reg : SignatureRegistry, WF reg →
      (inline_single_parent_signatures reg).isSome = true) := by
  refine ⟨?_, ?_, ?_⟩
  · intro v reg m t hw
    obtain ⟨ts, reg', h1, -, -, -⟩ := collect_signatures_WF v reg m t hw
    simp [h1]
  · intro v reg m t ts' reg'' hw h'
    obtain ⟨ts, reg', h1, h2, -, -⟩ := collect_signatures_WF v reg m t hw
    rw [h1] at h'
    have hpair : (ts, reg') = (ts', reg'') := (Option.some.injEq _ _).mp h'
    have hreg : reg' = reg'' := congrArg Prod.snd hpair
    exact hreg ▸ h2
  · intro reg hw
    exact inline_ids_total (single_parent_ids reg) reg
      (single_parent_ids_nodup hw.1) (single_parent_ids_present reg)

theorem C9_witness :
    ((collect_signatures vNested2 SignatureRegistry.new 2 true).isSome = true) ∧
    WF regN2 ∧ ((inline_single_parent_signatures regN2).isSome = true) := by
  have hstream := eval_collect_vNested2
  have hc : ∃ ts reg', collect_signatures vNested2 SignatureRegistry.new 2 true =
      some (ts, reg') ∧ reg' = regN2 := by
    have h2 := hstream
    simp only [collect_stream] at h2
    cases hcv : collect_signatures vNested2 SignatureRegistry.new 2 true with
    | none => rw [hcv] at h2; exact Option.noConfusion h2
    | some pr =>
      obtain ⟨t0, r0⟩ := pr
      rw [hcv] at h2
      simp [collect_stream] at h2
      exact ⟨t0, r0, rfl, h2⟩
  obtain ⟨ts, reg', hcv, hr⟩ := hc
  refine ⟨by simp [hcv], ?_, ?_⟩
  · subst hr
    exact C9_core_totality.2.1 vNested2 SignatureRegistry.new 2 true ts regN2
      WF_new hcv
  · refine C9_core_totality.2.2 regN2 ?_
    subst hr
    exact C9_core_totality.2.1 vNested2 SignatureRegistry.new 2 true ts regN2
      WF_new hcv

/-- C1: hash-consing uniqueness.  (i) Two `get_or_create_id` calls with
structurally equal shapes — even separated by an arbitrary amount of further
collection — return the same id.  (ii) Collection preserves registry
well-formedness from any well-formed start (in particular the empty
registry), and (iii) a well-formed registry's id→entry map never holds two
entries with structurally equal shapes. -/
theorem C1_hash_consing_unique :
    (∀ (reg : SignatureRegistry) (s : ContainerSignature) (t₁ t₂ : Bool)
      (b₁ b₂ : Bool) (id₁ id₂ : Nat) (reg₁ reg₂ reg₃ : SignatureRegistry)
      (vs : List IonValue) (m : Nat),
      WF reg → csRefsOK reg.id_to_signature reg.next_id s = true →
      get_or_create_id reg s t₁ = some ((b₁, id₁), reg₁) →
      collect_stream vs reg₁ m = some reg₂ →
      get_or_create_id reg₂ s t₂ = some ((b₂, id₂), reg₃) →
      id₁ = id₂) ∧
    (∀ (v : IonValue) (reg : SignatureRegistry) (m : Nat) (t : Bool)
      (ts : TypeSignature) (reg' : SignatureRegistry), WF reg →
      collect_signatures v reg m t = some (ts, reg') → WF reg') ∧
    (∀ reg : SignatureRegistry, WF reg →
      ∀ p ∈ reg.id_to_signature, ∀ q ∈ reg.id_to_signature,
        p.2.signature = q.2.signature → p.1 = q.1) := by
  refine ⟨?_, C9_core_totality.2.1, ?_⟩
  · intro reg s t₁ t₂ b₁ b₂ id₁ id₂ reg₁ reg₂ reg₃ vs m hw hrefs h1 hstream h2
    obtain ⟨b, id, reg₁', heq, hw₁', hext₁', hsid₁, -, -⟩ :=
      get_or_create_id_WF reg s t₁ hw hrefs
    rw [h1] at heq
    have hpair := (Option.some.injEq _ _).mp heq
    have hid : id₁ = id := congrArg (fun x => x.1.2) hpair
    have hreg : reg₁ = reg₁' := congrArg Prod.snd hpair
    rw [← hreg] at hw₁' hsid₁
    rw [← hid] at hsid₁
    obtain ⟨reg₂', hs', hw₂', hext₂'⟩ := collect_stream_WF vs reg₁ m hw₁'
    rw [hstream] at hs'
    have hreg₂ : reg₂ = reg₂' := (Option.some.injEq _ _).mp hs'
    rw [← hreg₂] at hext₂'
    have hsid₂ : alook reg₂.signature_to_id s = some id₁ :=
      hext₂'.2.1 s id₁ hsid₁
    exact (get_or_create_id_hit_id hsid₂ h2).symm
  · intro reg hw p hp q hq hsig
    have h1 := hw.2.2.2.1 p hp
    have h2 := hw.2.2.2.1 q hq
    rw [hsig] at h1
    rw [h1] at h2
    exact (Option.some.injEq _ _).mp h2

theorem eval_gcid_new :
    get_or_create_id SignatureRegistry.new SXY true = some ((false, 0), regXY 1) := by
  simp [get_or_create_id, SignatureRegistry.new, regXY, SXY, alook]

theorem C1_witness : (0 : Nat) = 0 ∧ WF (regXY 1) := by
  constructor
  · exact C1_hash_consing_unique.1 SignatureRegistry.new SXY true true false true
      0 0 (regXY 1) (regXY 1) (regXY 2) [] 2 WF_new
      (by simp [SignatureRegistry.new, csRefsOK, SXY, fieldsRefsOK, tsRefsOK])
      eval_gcid_new (by simp [collect_stream]) eval_gcid_hit
  · exact C1_hash_consing_unique.2.1 vXY SignatureRegistry.new 2 true
      (.Container 0) (regXY 1) WF_new eval_collect_vXY_first

/-! ## Claim C6: size and registration threshold -/

theorem collect_struct_branches (s : List (Option String × IonValue))
    (reg : SignatureRegistry) (m : Nat) (t : Bool)
    (fs : List (String × TypeSignature)) (reg₁ : SignatureRegistry) (n : Nat)
    (hw : WF reg) (hcf : collectFields s reg m = some (fs, reg₁))
    (hn : ContainerSignature.size (reg₁.next_id + 1) reg₁
      (.Struct (sortFields fs)) = some n) :
    (m ≤ n → ∃ id reg₂, collect_signatures (.struct s) reg m t =
        some (.Container id, reg₂) ∧
        alook reg₂.signature_to_id (.Struct (sortFields fs)) = some id) ∧
    (n < m → collect_signatures (.struct s) reg m t =
        some (.Verbatim (.Struct (sortFields fs)), reg₁)) := by
  obtain ⟨fs', reg₁', hcf', hw₁, hext₁, hrefs₁⟩ := collectFields_WF s reg m hw
  rw [hcf] at hcf'
  have hpair := (Option.some.injEq _ _).mp hcf'
  have hfs : fs = fs' := congrArg Prod.fst hpair
  have hreg₁ : reg₁ = reg₁' := congrArg Prod.snd hpair
  subst hfs hreg₁  
  have hsorted : fieldsRefsOK reg₁.id_to_signature reg₁.next_id
      (sortFields fs) = true := by
    rw [fieldsRefsOK_forall] at hrefs₁ ⊢
    exact fun p hp => hrefs₁ p ((sortFields_perm fs).subset hp)
  have hcsrefs : csRefsOK reg₁.id_to_signature reg₁.next_id
      (.Struct (sortFields fs)) = true := by
    simpa [csRefsOK] using hsorted
  constructor
  · intro hmn
    obtain ⟨b, id, reg₂, hg, hw₂, hext₂, hsid, hidlt, e', he', hes⟩ :=
      get_or_create_id_WF reg₁ (.Struct (sortFields fs)) t hw₁ hcsrefs
    cases b with
    | true =>
      refine ⟨id, reg₂, ?_, hsid⟩
      simp only [collect_signatures, hcf]
      simp [hn, hg, hmn]
    | false =>
      have hpres : ∀ cid, TypeSignature.Container cid ∈
          (sortFields fs).map Prod.snd →
          (alook reg₂.id_to_signature cid).isSome = true := by
        intro cid hin
        obtain ⟨p, hp, hpe⟩ := List.mem_map.mp hin
        rw [fieldsRefsOK_forall] at hsorted
        have := hsorted p hp
        rw [hpe] at this
        simp only [tsRefsOK, Bool.and_eq_true, decide_eq_true_eq] at this
        exact RegExt_presence hext₂ cid this.2
      obtain ⟨reg₃, hbump, hw₃, hext₃⟩ :=
        bump_parents_WF ((sortFields fs).map Prod.snd) reg₂ hw₂ hpres
      refine ⟨id, reg₃, ?_, hext₃.2.1 _ _ hsid⟩
      simp only [collect_signatures, hcf]
      simp [hn, hg, hmn, hbump]
  · intro hnm
    simp only [collect_signatures, hcf]
    simp [hn, Nat.not_le.mpr hnm]

theorem collect_sequence_branches (l : List IonValue)
    (reg : SignatureRegistry) (m : Nat) (t : Bool)
    (ctor : List TypeSignature → ContainerSignature)
    (els : List TypeSignature) (reg₁ : SignatureRegistry) (n : Nat)
    (hctor : ∀ (mm : List (Nat × SignatureRegistryEntry)) (b : Nat)
      (es : List TypeSignature),
      csRefsOK mm b (ctor es) = elemsRefsOK mm b es)
    (hw : WF reg) (hce : collectElems l reg m = some (els, reg₁))
    (hn : ContainerSignature.size (reg₁.next_id + 1) reg₁ (ctor els) =
      some n) :
    (m ≤ n → ∃ id reg₂, collect_sequence_signatures l reg m t ctor =
        some (.Container id, reg₂) ∧
        alook reg₂.signature_to_id (ctor els) = some id) ∧
    (n < m → collect_sequence_signatures l reg m t ctor =
        some (.Verbatim (ctor els), reg₁)) := by
  obtain ⟨els', reg₁', hce', hw₁, hext₁, hrefs₁⟩ := collectElems_WF l reg m hw
  rw [hce] at hce'
  have hpair := (Option.some.injEq _ _).mp hce'
  have hels : els = els' := congrArg Prod.fst hpair
  have hreg₁ : reg₁ = reg₁' := congrArg Prod.snd hpair
  subst hels hreg₁
  have hcsrefs : csRefsOK reg₁.id_to_signature reg₁.next_id (ctor els) =
      true := by
    rw [hctor]; exact hrefs₁
  constructor
  · intro hmn
    obtain ⟨b, id, reg₂, hg, hw₂, hext₂, hsid, hidlt, e', he', hes⟩ :=
      get_or_create_id_WF reg₁ (ctor els) t hw₁ hcsrefs
    cases b with
    | true =>
      refine ⟨id, reg₂, ?_, hsid⟩
      simp only [collect_sequence_signatures, hce]
      simp [hn, hg, hmn]
    | false =>
      have hpres : ∀ cid, TypeSignature.Container cid ∈ els →
          (alook reg₂.id_to_signature cid).isSome = true := by
        intro cid hin
        rw [elemsRefsOK_forall] at hrefs₁
        have hts := hrefs₁ _ hin
        simp only [tsRefsOK, Bool.and_eq_true, decide_eq_true_eq] at hts
        exact RegExt_presence hext₂ cid hts.2
      obtain ⟨reg₃, hbump, hw₃, hext₃⟩ := bump_parents_WF els reg₂ hw₂ hpres
      refine ⟨id, reg₃, ?_, hext₃.2.1 _ _ hsid⟩
      simp only [collect_sequence_signatures, hce]
      simp [hn, hg, hmn, hbump]
  · intro hnm
    simp only [collect_sequence_signatures, hce]
    simp [hn, Nat.not_le.mpr hnm]

/-- C6: the size computation and the registration threshold.  The size of a
shape is its number of direct children plus the sum of the children's
container sizes, where a scalar child contributes 0, a `Verbatim` child
contributes the inline shape's size, and a `Container` child contributes the
size of the referenced entry's shape; every container shape — a struct, a
list or an s-expression — is registered and a `ContainerRef` returned
exactly when its size reaches `min_size`, and otherwise the `Verbatim`
(inline) shape is returned with the registry left exactly as the children
left it; in particular, with `min_size = 2`, a one-scalar-field record is
never registered (the registry is returned untouched) and a two-scalar-field
record is registered on first occurrence. -/
theorem C6_size_and_threshold :
    (∀ (fuel : Nat) (reg : SignatureRegistry)
      (fields : List (String × TypeSignature)),
      ContainerSignature.size fuel reg (.Struct fields) =
        (sizeFields fuel reg fields).map (fun s => fields.length + s)) ∧
    (∀ (fuel : Nat) (reg : SignatureRegistry) (elements : List TypeSignature),
      ContainerSignature.size fuel reg (.List elements) =
        (sizeElems fuel reg elements).map (fun s => elements.length + s) ∧
      ContainerSignature.size fuel reg (.SExp elements) =
        (sizeElems fuel reg elements).map (fun s => elements.length + s)) ∧
    (∀ (fuel : Nat) (reg : SignatureRegistry) (t : TypeSignature),
      (∀ id, t ≠ .Container id) → (∀ sg, t ≠ .Verbatim sg) →
      TypeSignature.container_size fuel reg t = some 0) ∧
    (∀ (fuel : Nat) (reg : SignatureRegistry) (sg : ContainerSignature),
      TypeSignature.container_size fuel reg (.Verbatim sg) =
        ContainerSignature.size fuel reg sg) ∧
    (∀ (f : Nat) (reg : SignatureRegistry) (id : Nat) (e : SignatureRegistryEntry),
      alook reg.id_to_signature id = some e →
      TypeSignature.container_size (f + 1) reg (.Container id) =
        ContainerSignature.size f reg e.signature) ∧
    (∀ (s : List (Option String × IonValue)) (reg : SignatureRegistry)
      (m : Nat) (t : Bool) (fs : List (String × TypeSignature))
      (reg₁ : SignatureRegistry) (n : Nat),
      WF reg → collectFields s reg m = some (fs, reg₁) →
      ContainerSignature.size (reg₁.next_id + 1) reg₁
        (.Struct (sortFields fs)) = some n →
      (m ≤ n → ∃ id reg₂, collect_signatures (.struct s) reg m t =
          some (.Container id, reg₂) ∧
          alook reg₂.signature_to_id (.Struct (sortFields fs)) = some id) ∧
      (n < m → collect_signatures (.struct s) reg m t =
          some (.Verbatim (.Struct (sortFields fs)), reg₁))) ∧
    (∀ (l : List IonValue) (reg : SignatureRegistry) (m : Nat) (t : Bool)
      (els : List TypeSignature) (reg₁ : SignatureRegistry) (n : Nat),
      WF reg → collectElems l reg m = some (els, reg₁) →
      ContainerSignature.size (reg₁.next_id + 1) reg₁ (.List els) = some n →
      (m ≤ n → ∃ id reg₂, collect_signatures (.list l) reg m t =
          some (.Container id, reg₂) ∧
          alook reg₂.signature_to_id (.List els) = some id) ∧
      (n < m → collect_signatures (.list l) reg m t =
          some (.Verbatim (.List els), reg₁))) ∧
    (∀ (l : List IonValue) (reg : SignatureRegistry) (m : Nat) (t : Bool)
      (els : List TypeSignature) (reg₁ : SignatureRegistry) (n : Nat),
      WF reg → collectElems l reg m = some (els, reg₁) →
      ContainerSignature.size (reg₁.next_id + 1) reg₁ (.SExp els) = some n →
      (m ≤ n → ∃ id reg₂, collect_signatures (.sexp l) reg m t =
          some (.Container id, reg₂) ∧
          alook reg₂.signature_to_id (.SExp els) = some id) ∧
      (n < m → collect_signatures (.sexp l) reg m t =
          some (.Verbatim (.SExp els), reg₁))) ∧
    (collect_signatures (.struct [(some "a", .int)]) SignatureRegistry.new 2 true =
      some (.Verbatim (.Struct [("a", .Int)]), SignatureRegistry.new)) ∧
    (collect_signatures vXY SignatureRegistry.new 2 true =
      some (.Container 0, regXY 1)) := by
  refine ⟨?_, ?_, ?_, ?_, ?_, collect_struct_branches, ?_, ?_,
    eval_collect_one_field, eval_collect_vXY_first⟩
  · intro fuel reg fields
    simp only [ContainerSignature.size]
    cases sizeFields fuel reg fields <;> rfl
  · intro fuel reg elements
    constructor <;> simp only [ContainerSignature.size] <;>
      cases sizeElems fuel reg elements <;> rfl
  · intro fuel reg t hnc hnv
    cases t with
    | Container id => exact absurd rfl (hnc id)
    | Verbatim sg => exact absurd rfl (hnv sg)
    | _ => simp [TypeSignature.container_size]
  · intro fuel reg sg
    simp [TypeSignature.container_size]
  · intro f reg id e he
    rw [TypeSignature.container_size.eq_def]
    simp [he]
  · intro l reg m t els reg₁ n hw hce hn
    have hb := collect_sequence_branches l reg m t ContainerSignature.List
      els reg₁ n (fun mm b es => by simp [csRefsOK]) hw hce hn
    refine ⟨?_, ?_⟩
    · intro hmn
      obtain ⟨id, reg₂, hrun, hsid⟩ := hb.1 hmn
      exact ⟨id, reg₂, by simpa [collect_signatures] using hrun, hsid⟩
    · intro hnm
      simpa [collect_signatures] using hb.2 hnm
  · intro l reg m t els reg₁ n hw hce hn
    have hb := collect_sequence_branches l reg m t ContainerSignature.SExp
      els reg₁ n (fun mm b es => by simp [csRefsOK]) hw hce hn
    refine ⟨?_, ?_⟩
    · intro hmn
      obtain ⟨id, reg₂, hrun, hsid⟩ := hb.1 hmn
      exact ⟨id, reg₂, by simpa [collect_signatures] using hrun, hsid⟩
    · intro hnm
      simpa [collect_signatures] using hb.2 hnm

theorem C6_witness :
    TypeSignature.container_size 2 regN2 (.Container 0) =
      ContainerSignature.size 1 regN2 SXY ∧
    TypeSignature.container_size 7 regN2 .Int = some 0 ∧
    (∃ id reg₂,
      collect_signatures (.struct [(some "x", .int), (some "y", .int)])
        SignatureRegistry.new 2 true = some (.Container id, reg₂) ∧
      alook reg₂.signature_to_id
        (.Struct (sortFields [("x", .Int), ("y", .Int)])) = some id) ∧
    (∃ id reg₂,
      collect_signatures (.list [.int, .int]) SignatureRegistry.new 2 true =
        some (.Container id, reg₂) ∧
      alook reg₂.signature_to_id (.List [.Int, .Int]) = some id) ∧
    collect_signatures (.sexp [.int]) SignatureRegistry.new 2 true =
      some (.Verbatim (.SExp [.Int]), SignatureRegistry.new) := by
  refine ⟨?_, ?_, ?_, ?_, ?_⟩
  · exact C6_size_and_threshold.2.2.2.2.1 1 regN2 0 ⟨SXY, 1, 1, false⟩
      (by simp [regN2, alook])
  · exact C6_size_and_threshold.2.2.1 7 regN2 .Int (by simp) (by simp)
  · exact (C6_size_and_threshold.2.2.2.2.2.1 [(some "x", .int), (some "y", .int)]
      SignatureRegistry.new 2 true [("x", .Int), ("y", .Int)]
      SignatureRegistry.new 2 WF_new
      (by simp [collectFields, collect_signatures, SignatureRegistry.new])
      (by
        have h1 : (['x'] ≤ ['y']) := by decide
        simp [sortFields, insertField, ContainerSignature.size, sizeFields,
          TypeSignature.container_size, SignatureRegistry.new, h1])).1
      (by decide)
  · exact (C6_size_and_threshold.2.2.2.2.2.2.1 [.int, .int]
      SignatureRegistry.new 2 true [.Int, .Int] SignatureRegistry.new 2 WF_new
      (by simp [collectElems, collect_signatures, SignatureRegistry.new])
      (by simp [ContainerSignature.size, sizeElems,
        TypeSignature.container_size, SignatureRegistry.new])).1
      (by decide)
  · exact (C6_size_and_threshold.2.2.2.2.2.2.2.1 [.int]
      SignatureRegistry.new 2 true [.Int] SignatureRegistry.new 1 WF_new
      (by simp [collectElems, collect_signatures, SignatureRegistry.new])
      (by simp [ContainerSignature.size, sizeElems,
        TypeSignature.container_size, SignatureRegistry.new])).2
      (by decide)

/-! ## Claim C8: hit/miss bookkeeping and occurrence counts -/

theorem collect_stream_replicate (k : Nat) :
    ∀ n, collect_stream (List.replicate k vXY) (regXY (n + 1)) 2 =
      some (regXY (n + 1 + k)) := by
  induction k with
  | zero => intro n; simp [collect_stream]
  | succ k ih =>
    intro n
    rw [List.replicate_succ]
    have h2 := ih (n + 1)
    have h3 : n + 1 + 1 + k = n + 1 + (k + 1) := by omega
    rw [h3] at h2
    simpa [collect_stream, eval_collect_vXY_hit] using h2

/-- C8: hit/miss bookkeeping of `get_or_create_id` and count accuracy.  On a
cache hit the entry's `count` is incremented by exactly 1 and
`appears_top_level` is or-ed with the current flag, the signature and
`parent_count` are untouched, and every other id's entry is unchanged; on a
miss a fresh entry is created with `count = 1`, `parent_count = 0` and
`appears_top_level` equal to the flag; consequently a stream of N identical
top-level two-field records yields exactly one entry, with count N. -/
theorem C8_count_bookkeeping :
    (∀ (reg : SignatureRegistry) (s : ContainerSignature) (tl : Bool)
      (i : Nat) (e : SignatureRegistryEntry),
      alook reg.signature_to_id s = some i →
      alook reg.id_to_signature i = some e →
      get_or_create_id reg s tl =
        some ((true, i),
          { reg with id_to_signature := aupd reg.id_to_signature i (fun o =>
              { o with count := o.count + 1,
                       appears_top_level := o.appears_top_level || tl }) }) ∧
      alook (aupd reg.id_to_signature i (fun o =>
          { o with count := o.count + 1,
                   appears_top_level := o.appears_top_level || tl })) i =
        some { signature := e.signature, count := e.count + 1,
               parent_count := e.parent_count,
               appears_top_level := e.appears_top_level || tl } ∧
      (∀ j, j ≠ i →
        alook (aupd reg.id_to_signature i (fun o =>
          { o with count := o.count + 1,
                   appears_top_level := o.appears_top_level || tl })) j =
          alook reg.id_to_signature j)) ∧
    (∀ (reg : SignatureRegistry) (s : ContainerSignature) (tl : Bool),
      alook reg.signature_to_id s = none →
      get_or_create_id reg s tl =
        some ((false, reg.next_id),
          { id_to_signature := reg.id_to_signature ++
              [(reg.next_id, { signature := s, count := 1, parent_count := 0,
                               appears_top_level := tl })],
            signature_to_id := reg.signature_to_id ++ [(s, reg.next_id)],
            next_id := reg.next_id + 1 })) ∧
    (∀ n : Nat,
      collect_stream (List.replicate (n + 1) vXY) SignatureRegistry.new 2 =
        some (regXY (n + 1)) ∧
      (regXY (n + 1)).id_to_signature =
        [(0, { signature := SXY, count := n + 1, parent_count := 0,
               appears_top_level := true })]) := by
  refine ⟨?_, ?_, ?_⟩
  · intro reg s tl i e hs he
    refine ⟨?_, ?_, ?_⟩
    · simp [get_or_create_id, hs, he]
    · rw [alook_aupd_self, he]
      rfl
    · intro j hj
      exact alook_aupd_ne _ _ hj
  · intro reg s tl hs
    simp [get_or_create_id, hs]
  · intro n
    constructor
    · rw [List.replicate_succ]
      have h1 := collect_stream_replicate n 0
      simp only [Nat.zero_add] at h1
      have h3 : 1 + n = n + 1 := by omega
      rw [h3] at h1
      simp [collect_stream, eval_collect_vXY_first, h1]
    · simp [regXY]

theorem C8_witness :
    get_or_create_id (regXY 1) SXY true = some ((true, 0), regXY 2) ∧
    get_or_create_id SignatureRegistry.new SXY true =
      some ((false, 0), regXY 1) ∧
    collect_stream (List.replicate 3 vXY) SignatureRegistry.new 2 =
      some (regXY 3) := by
  refine ⟨?_, ?_, (C8_count_bookkeeping.2.2 2).1⟩
  · have h := (C8_count_bookkeeping.1 (regXY 1) SXY true 0 ⟨SXY, 1, 0, true⟩
      (by simp [regXY, alook]) (by simp [regXY, alook])).1
    simpa [regXY, aupd] using h
  · have h := C8_count_bookkeeping.2.1 SignatureRegistry.new SXY true
      (by simp [SignatureRegistry.new, alook])
    simpa [SignatureRegistry.new, regXY] using h

/-! ## Claim C7: field-order invariance — sorting and stability machinery -/

theorem insertField_mem {x : String × TypeSignature}
    {l : List (String × TypeSignature)} {z : String × TypeSignature}
    (hz : z ∈ insertField x l) : z = x ∨ z ∈ l :=
  List.mem_cons.mp ((insertField_perm x l).subset hz)

theorem insertField_sorted (x : String × TypeSignature)
    (l : List (String × TypeSignature))
    (hl : l.Pairwise (fun a b => a.1 ≤ b.1)) :
    (insertField x l).Pairwise (fun a b => a.1 ≤ b.1) := by
  induction l with
  | nil => simp [insertField]
  | cons y rest ih =>
    obtain ⟨hy, hrest⟩ := List.pairwise_cons.mp hl
    by_cases hx : x.1 ≤ y.1
    · simp only [insertField, if_pos hx]
      refine List.pairwise_cons.mpr ⟨?_, hl⟩
      intro z hz
      rcases List.mem_cons.mp hz with rfl | hz'
      · exact hx
      · exact le_trans hx (hy z hz')
    · simp only [insertField, if_neg hx]
      refine List.pairwise_cons.mpr ⟨?_, ih hrest⟩
      intro z hz
      rcases insertField_mem hz with rfl | hz'
      · exact le_of_not_le hx
      · exact hy z hz'

theorem sortFields_sorted (l : List (String × TypeSignature)) :
    (sortFields l).Pairwise (fun a b => a.1 ≤ b.1) := by
  induction l with
  | nil => simp [sortFields]
  | cons x rest ih => exact insertField_sorted x _ ih

theorem sortFields_eq_of_perm (l l' : List (String × TypeSignature))
    (hp : l.Perm l') (hn : (l.map Prod.fst).Nodup) :
    sortFields l = sortFields l' := by
  haveI : IsAntisymm (String × TypeSignature) (fun a b => a.1 < b.1) :=
    ⟨fun a b h1 h2 => absurd (lt_trans h1 h2) (lt_irrefl a.1)⟩
  have hperm : (sortFields l).Perm (sortFields l') :=
    (sortFields_perm l).trans (hp.trans (sortFields_perm l').symm)
  have hnl : ((sortFields l).map Prod.fst).Nodup :=
    (((sortFields_perm l).map Prod.fst).nodup_iff).mpr hn
  have hnl' : ((sortFields l').map Prod.fst).Nodup := by
    refine (((sortFields_perm l').map Prod.fst).nodup_iff).mpr ?_
    exact ((hp.map Prod.fst).nodup_iff).mp hn
  have hs1 : (sortFields l).Pairwise (fun a b => a.1 < b.1) := by
    have h1 : (sortFields l).Pairwise (fun a b => a.1 ≠ b.1) :=
      List.pairwise_map.mp hnl
    exact ((sortFields_sorted l).and h1).imp
      (fun hab => lt_of_le_of_ne hab.1 hab.2)
  have hs2 : (sortFields l').Pairwise (fun a b => a.1 < b.1) := by
    have h1 : (sortFields l').Pairwise (fun a b => a.1 ≠ b.1) :=
      List.pairwise_map.mp hnl'
    exact ((sortFields_sorted l').and h1).imp
      (fun hab => lt_of_le_of_ne hab.1 hab.2)
  exact List.eq_of_perm_of_sorted hperm hs1 hs2

/-! Re-collection stability: once a value has been reduced, reducing it again
from any well-formed extension of the post-reduction registry yields the same
`TypeSignature` (the top-level flag is irrelevant to the returned shape). -/

mutual

theorem collect_stable :
    ∀ (v : IonValue) (reg : SignatureRegistry) (m : Nat) (t : Bool)
      (s : TypeSignature) (reg₁ : SignatureRegistry),
      WF reg →
      collect_signatures v reg m t = some (s, reg₁) →
      ∀ reg' : SignatureRegistry, WF reg' → RegExt reg₁ reg' → ∀ t' : Bool,
      ∃ reg₂, collect_signatures v reg' m t' = some (s, reg₂) ∧
        WF reg₂ ∧ RegExt reg' reg₂
  | .null, reg, m, t, s, reg₁ => fun _ h reg' hw' _ t' => by
    simp only [collect_signatures, Option.some.injEq, Prod.mk.injEq] at h
    exact ⟨reg', by simp [collect_signatures, h.1], hw', RegExt_refl _⟩
  | .bool, reg, m, t, s, reg₁ => fun _ h reg' hw' _ t' => by
    simp only [collect_signatures, Option.some.injEq, Prod.mk.injEq] at h
    exact ⟨reg', by simp [collect_signatures, h.1], hw', RegExt_refl _⟩
  | .int, reg, m, t, s, reg₁ => fun _ h reg' hw' _ t' => by
    simp only [collect_signatures, Option.some.injEq, Prod.mk.injEq] at h
    exact ⟨reg', by simp [collect_signatures, h.1], hw', RegExt_refl _⟩
  | .float, reg, m, t, s, reg₁ => fun _ h reg' hw' _ t' => by
    simp only [collect_signatures, Option.some.injEq, Prod.mk.injEq] at h
    exact ⟨reg', by simp [collect_signatures, h.1], hw', RegExt_refl _⟩
  | .decimal, reg, m, t, s, reg₁ => fun _ h reg' hw' _ t' => by
    simp only [collect_signatures, Option.some.injEq, Prod.mk.injEq] at h
    exact ⟨reg', by simp [collect_signatures, h.1], hw', RegExt_refl _⟩
  | .timestamp, reg, m, t, s, reg₁ => fun _ h reg' hw' _ t' => by
    simp only [collect_signatures, Option.some.injEq, Prod.mk.injEq] at h
    exact ⟨reg', by simp [collect_signatures, h.1], hw', RegExt_refl _⟩
  | .string, reg, m, t, s, reg₁ => fun _ h reg' hw' _ t' => by
    simp only [collect_signatures, Option.some.injEq, Prod.mk.injEq] at h
    exact ⟨reg', by simp [collect_signatures, h.1], hw', RegExt_refl _⟩
  | .symbol, reg, m, t, s, reg₁ => fun _ h reg' hw' _ t' => by
    simp only [collect_signatures, Option.some.injEq, Prod.mk.injEq] at h
    exact ⟨reg', by simp [collect_signatures, h.1], hw', RegExt_refl _⟩
  | .blob, reg, m, t, s, reg₁ => fun _ h reg' hw' _ t' => by
    simp only [collect_signatures, Option.some.injEq, Prod.mk.injEq] at h
    exact ⟨reg', by simp [collect_signatures, h.1], hw', RegExt_refl _⟩
  | .clob, reg, m, t, s, reg₁ => fun _ h reg' hw' _ t' => by
    simp only [collect_signatures, Option.some.injEq, Prod.mk.injEq] at h
    exact ⟨reg', by simp [collect_signatures, h.1], hw', RegExt_refl _⟩
  | .struct sf, reg, m, t, s, reg₁ => fun hw h reg' hw' hext' t' => by
    obtain ⟨fs, regF, hcf, hwF, hextF, hrefsF⟩ := collectFields_WF sf reg m hw
    have hsorted : fieldsRefsOK regF.id_to_signature regF.next_id
        (sortFields fs) = true := by
      rw [fieldsRefsOK_forall] at hrefsF ⊢
      exact fun p hp => hrefsF p ((sortFields_perm fs).subset hp)
    have hcsrefs : csRefsOK regF.id_to_signature regF.next_id
        (.Struct (sortFields fs)) = true := by
      simpa [csRefsOK] using hsorted
    have hsz := csSize_isSome (regF.next_id + 1) regF (WF_MapRefsOK hwF)
      (.Struct (sortFields fs))
      (csRefsOK_mono _ _ _ _ (Nat.le_succ _) (fun _ hx => hx) _ hcsrefs)
    obtain ⟨n, hn⟩ := Option.isSome_iff_exists.mp hsz
    -- re-run the field loop at the extended registry
    by_cases hmn : m ≤ n
    · obtain ⟨b, id, regG, hg, hwG, hextG, hsid, hidlt, e', he', hes⟩ :=
        get_or_create_id_WF regF (.Struct (sortFields fs)) t hwF hcsrefs
      cases b with
      | true =>
        have hrun : collect_signatures (.struct sf) reg m t =
            some (.Container id, regG) := by
          simp only [collect_signatures, hcf]
          simp [hn, hg, hmn]
        rw [hrun] at h
        have hpair := (Option.some.injEq _ _).mp h
        have hs₀ : TypeSignature.Container id = s := congrArg Prod.fst hpair
        have hr₀ : regG = reg₁ := congrArg Prod.snd hpair
        subst hr₀
        obtain ⟨regF2, hcf2, hwF2, hextT2⟩ :=
          collectFields_stable sf reg m fs regF hw hcf reg' hw'
            (RegExt_trans hextG hext')
        have hchainF : RegExt regF regF2 :=
          RegExt_trans hextG (RegExt_trans hext' hextT2)
        have hchainG : RegExt regG regF2 := RegExt_trans hext' hextT2
        have hn2 : ContainerSignature.size (regF2.next_id + 1) regF2
            (.Struct (sortFields fs)) = some n :=
          csSize_ext_mono (regF.next_id + 1) (regF2.next_id + 1)
            (by have := hchainF.1; omega) regF regF2 hchainF.2.2 _ n hn
        have hsid2 : alook regF2.signature_to_id (.Struct (sortFields fs)) =
            some id := hchainG.2.1 _ _ hsid
        obtain ⟨e2, he2, -⟩ := hchainG.2.2 id e' he'
        obtain ⟨hwG2, hextG2⟩ := WF_aupd regF2 id
          (fun o => { o with count := o.count + 1, appears_top_level := o.appears_top_level || t' })
          (fun o => rfl) hwF2
        refine ⟨_, ?_, hwG2, RegExt_trans hextT2 hextG2⟩
        simp only [collect_signatures, hcf2]
        rw [← hs₀]
        simp [hn2, hmn, get_or_create_id, hsid2, he2]
      | false =>
        have hpres : ∀ cid, TypeSignature.Container cid ∈
            (sortFields fs).map Prod.snd →
            (alook regG.id_to_signature cid).isSome = true := by
          intro cid hin
          obtain ⟨p, hp, hpe⟩ := List.mem_map.mp hin
          rw [fieldsRefsOK_forall] at hsorted
          have hts := hsorted p hp
          rw [hpe] at hts
          simp only [tsRefsOK, Bool.and_eq_true, decide_eq_true_eq] at hts
          exact RegExt_presence hextG cid hts.2
        obtain ⟨regB, hbump, hwB, hextB⟩ :=
          bump_parents_WF ((sortFields fs).map Prod.snd) regG hwG hpres
        have hrun : collect_signatures (.struct sf) reg m t =
            some (.Container id, regB) := by
          simp only [collect_signatures, hcf]
          simp [hn, hg, hmn, hbump]
        rw [hrun] at h
        have hpair := (Option.some.injEq _ _).mp h
        have hs₀ : TypeSignature.Container id = s := congrArg Prod.fst hpair
        have hr₀ : regB = reg₁ := congrArg Prod.snd hpair
        subst hr₀
        obtain ⟨regF2, hcf2, hwF2, hextT2⟩ :=
          collectFields_stable sf reg m fs regF hw hcf reg' hw'
            (RegExt_trans hextG (RegExt_trans hextB hext'))
        have hchainF : RegExt regF regF2 :=
          RegExt_trans hextG (RegExt_trans hextB (RegExt_trans hext' hextT2))
        have hchainG : RegExt regG regF2 :=
          RegExt_trans hextB (RegExt_trans hext' hextT2)
        have hn2 : ContainerSignature.size (regF2.next_id + 1) regF2
            (.Struct (sortFields fs)) = some n :=
          csSize_ext_mono (regF.next_id + 1) (regF2.next_id + 1)
            (by have := hchainF.1; omega) regF regF2 hchainF.2.2 _ n hn
        have hsid2 : alook regF2.signature_to_id (.Struct (sortFields fs)) =
            some id := hchainG.2.1 _ _ hsid
        obtain ⟨e2, he2, -⟩ := hchainG.2.2 id e' he'
        obtain ⟨hwG2, hextG2⟩ := WF_aupd regF2 id
          (fun o => { o with count := o.count + 1, appears_top_level := o.appears_top_level || t' })
          (fun o => rfl) hwF2
        refine ⟨_, ?_, hwG2, RegExt_trans hextT2 hextG2⟩
        simp only [collect_signatures, hcf2]
        rw [← hs₀]
        simp [hn2, hmn, get_or_create_id, hsid2, he2]
    · have hrun : collect_signatures (.struct sf) reg m t =
          some (.Verbatim (.Struct (sortFields fs)), regF) := by
        simp only [collect_signatures, hcf]
        simp [hn, hmn]
      rw [hrun] at h
      have hpair := (Option.some.injEq _ _).mp h
      have hs₀ : TypeSignature.Verbatim (.Struct (sortFields fs)) = s :=
        congrArg Prod.fst hpair
      have hr₀ : regF = reg₁ := congrArg Prod.snd hpair
      subst hr₀
      obtain ⟨regF2, hcf2, hwF2, hextT2⟩ :=
        collectFields_stable sf reg m fs regF hw hcf reg' hw' hext'
      have hchainF : RegExt regF regF2 := RegExt_trans hext' hextT2
      have hn2 : ContainerSignature.size (regF2.next_id + 1) regF2
          (.Struct (sortFields fs)) = some n :=
        csSize_ext_mono (regF.next_id + 1) (regF2.next_id + 1)
          (by have := hchainF.1; omega) regF regF2 hchainF.2.2 _ n hn
      refine ⟨regF2, ?_, hwF2, hextT2⟩
      simp only [collect_signatures, hcf2]
      rw [← hs₀]
      simp [hn2, hmn]
  | .list l, reg, m, t, s, reg₁ => fun hw h reg' hw' hext' t' => by
    rw [collect_signatures.eq_def] at h
    obtain ⟨reg₂, h2, hw₂, hext₂⟩ := collect_sequence_stable l reg m t
      ContainerSignature.List s reg₁
      (fun mm b els => by simp [csRefsOK]) hw h reg' hw' hext' t'
    exact ⟨reg₂, by rw [collect_signatures.eq_def]; exact h2, hw₂, hext₂⟩
  | .sexp l, reg, m, t, s, reg₁ => fun hw h reg' hw' hext' t' => by
    rw [collect_signatures.eq_def] at h
    obtain ⟨reg₂, h2, hw₂, hext₂⟩ := collect_sequence_stable l reg m t
      ContainerSignature.SExp s reg₁
      (fun mm b els => by simp [csRefsOK]) hw h reg' hw' hext' t'
    exact ⟨reg₂, by rw [collect_signatures.eq_def]; exact h2, hw₂, hext₂⟩
termination_by v _ _ _ _ _ => (sizeOf v, 2)

theorem collect_sequence_stable :
    ∀ (l : List IonValue) (reg : SignatureRegistry) (m : Nat) (t : Bool)
      (ctor : List TypeSignature → ContainerSignature)
      (s : TypeSignature) (reg₁ : SignatureRegistry),
      (∀ (mm : List (Nat × SignatureRegistryEntry)) (b : Nat)
        (els : List TypeSignature),
        csRefsOK mm b (ctor els) = elemsRefsOK mm b els) →
      WF reg →
      collect_sequence_signatures l reg m t ctor = some (s, reg₁) →
      ∀ reg' : SignatureRegistry, WF reg' → RegExt reg₁ reg' → ∀ t' : Bool,
      ∃ reg₂, collect_sequence_signatures l reg' m t' ctor = some (s, reg₂) ∧
        WF reg₂ ∧ RegExt reg' reg₂
  | l, reg, m, t, ctor, s, reg₁ => fun hctor hw h reg' hw' hext' t' => by
    obtain ⟨els, regF, hce, hwF, hextF, hrefsF⟩ := collectElems_WF l reg m hw
    have hcsrefs : csRefsOK regF.id_to_signature regF.next_id (ctor els) =
        true := by rw [hctor]; exact hrefsF
    have hsz := csSize_isSome (regF.next_id + 1) regF (WF_MapRefsOK hwF)
      (ctor els)
      (csRefsOK_mono _ _ _ _ (Nat.le_succ _) (fun _ hx => hx) _ hcsrefs)
    obtain ⟨n, hn⟩ := Option.isSome_iff_exists.mp hsz
    by_cases hmn : m ≤ n
    · obtain ⟨b, id, regG, hg, hwG, hextG, hsid, hidlt, e', he', hes⟩ :=
        get_or_create_id_WF regF (ctor els) t hwF hcsrefs
      cases b with
      | true =>
        have hrun : collect_sequence_signatures l reg m t ctor =
            some (.Container id, regG) := by
          simp only [collect_sequence_signatures, hce]
          simp [hn, hg, hmn]
        rw [hrun] at h
        have hpair := (Option.some.injEq _ _).mp h
        have hs₀ : TypeSignature.Container id = s := congrArg Prod.fst hpair
        have hr₀ : regG = reg₁ := congrArg Prod.snd hpair
        subst hr₀
        obtain ⟨regF2, hce2, hwF2, hextT2⟩ :=
          collectElems_stable l reg m els regF hw hce reg' hw'
            (RegExt_trans hextG hext')
        have hchainF : RegExt regF regF2 :=
          RegExt_trans hextG (RegExt_trans hext' hextT2)
        have hchainG : RegExt regG regF2 := RegExt_trans hext' hextT2
        have hn2 : ContainerSignature.size (regF2.next_id + 1) regF2
            (ctor els) = some n :=
          csSize_ext_mono (regF.next_id + 1) (regF2.next_id + 1)
            (by have := hchainF.1; omega) regF regF2 hchainF.2.2 _ n hn
        have hsid2 : alook regF2.signature_to_id (ctor els) = some id :=
          hchainG.2.1 _ _ hsid
        obtain ⟨e2, he2, -⟩ := hchainG.2.2 id e' he'
        obtain ⟨hwG2, hextG2⟩ := WF_aupd regF2 id
          (fun o => { o with count := o.count + 1, appears_top_level := o.appears_top_level || t' })
          (fun o => rfl) hwF2
        refine ⟨_, ?_, hwG2, RegExt_trans hextT2 hextG2⟩
        simp only [collect_sequence_signatures, hce2]
        rw [← hs₀]
        simp [hn2, hmn, get_or_create_id, hsid2, he2]
      | false =>
        have hpres : ∀ cid, TypeSignature.Container cid ∈ els →
            (alook regG.id_to_signature cid).isSome = true := by
          intro cid hin
          rw [elemsRefsOK_forall] at hrefsF
          have hts := hrefsF _ hin
          simp only [tsRefsOK, Bool.and_eq_true, decide_eq_true_eq] at hts
          exact RegExt_presence hextG cid hts.2
        obtain ⟨regB, hbump, hwB, hextB⟩ := bump_parents_WF els regG hwG hpres
        have hrun : collect_sequence_signatures l reg m t ctor =
            some (.Container id, regB) := by
          simp only [collect_sequence_signatures, hce]
          simp [hn, hg, hmn, hbump]
        rw [hrun] at h
        have hpair := (Option.some.injEq _ _).mp h
        have hs₀ : TypeSignature.Container id = s := congrArg Prod.fst hpair
        have hr₀ : regB = reg₁ := congrArg Prod.snd hpair
        subst hr₀
        obtain ⟨regF2, hce2, hwF2, hextT2⟩ :=
          collectElems_stable l reg m els regF hw hce reg' hw'
            (RegExt_trans hextG (RegExt_trans hextB hext'))
        have hchainF : RegExt regF regF2 :=
          RegExt_trans hextG (RegExt_trans hextB (RegExt_trans hext' hextT2))
        have hchainG : RegExt regG regF2 :=
          RegExt_trans hextB (RegExt_trans hext' hextT2)
        have hn2 : ContainerSignature.size (regF2.next_id + 1) regF2
            (ctor els) = some n :=
          csSize_ext_mono (regF.next_id + 1) (regF2.next_id + 1)
            (by have := hchainF.1; omega) regF regF2 hchainF.2.2 _ n hn
        have hsid2 : alook regF2.signature_to_id (ctor els) = some id :=
          hchainG.2.1 _ _ hsid
        obtain ⟨e2, he2, -⟩ := hchainG.2.2 id e' he'
        obtain ⟨hwG2, hextG2⟩ := WF_aupd regF2 id
          (fun o => { o with count := o.count + 1, appears_top_level := o.appears_top_level || t' })
          (fun o => rfl) hwF2
        refine ⟨_, ?_, hwG2, RegExt_trans hextT2 hextG2⟩
        simp only [collect_sequence_signatures, hce2]
        rw [← hs₀]
        simp [hn2, hmn, get_or_create_id, hsid2, he2]
    · have hrun : collect_sequence_signatures l reg m t ctor =
          some (.Verbatim (ctor els), regF) := by
        simp only [collect_sequence_signatures, hce]
        simp [hn, hmn]
      rw [hrun] at h
      have hpair := (Option.some.injEq _ _).mp h
      have hs₀ : TypeSignature.Verbatim (ctor els) = s :=
        congrArg Prod.fst hpair
      have hr₀ : regF = reg₁ := congrArg Prod.snd hpair
      subst hr₀
      obtain ⟨regF2, hce2, hwF2, hextT2⟩ :=
        collectElems_stable l reg m els regF hw hce reg' hw' hext'
      have hchainF : RegExt regF regF2 := RegExt_trans hext' hextT2
      have hn2 : ContainerSignature.size (regF2.next_id + 1) regF2
          (ctor els) = some n :=
        csSize_ext_mono (regF.next_id + 1) (regF2.next_id + 1)
          (by have := hchainF.1; omega) regF regF2 hchainF.2.2 _ n hn
      refine ⟨regF2, ?_, hwF2, hextT2⟩
      simp only [collect_sequence_signatures, hce2]
      rw [← hs₀]
      simp [hn2, hmn]
termination_by l _ _ _ _ _ _ => (sizeOf l, 1)

theorem collectFields_stable :
    ∀ (l : List (Option String × IonValue)) (reg : SignatureRegistry) (m : Nat)
      (fs : List (String × TypeSignature)) (regF : SignatureRegistry),
      WF reg →
      collectFields l reg m = some (fs, regF) →
      ∀ reg' : SignatureRegistry, WF reg' → RegExt regF reg' →
      ∃ regB, collectFields l reg' m = some (fs, regB) ∧
        WF regB ∧ RegExt reg' regB
  | [], reg, m, fs, regF => fun _ h reg' hw' _ => by
    simp only [collectFields, Option.some.injEq, Prod.mk.injEq] at h
    exact ⟨reg', by simp [collectFields, h.1], hw', RegExt_refl _⟩
  | (nm, v) :: rest, reg, m, fs, regF => fun hw h reg' hw' hext' => by
    cases hc : collect_signatures v reg m false with
    | none => simp [collectFields, hc] at h
    | some pr =>
      obtain ⟨t₀, regM⟩ := pr
      cases hcf : collectFields rest regM m with
      | none => simp [collectFields, hc, hcf] at h
      | some pr₂ =>
        obtain ⟨fsr, regR⟩ := pr₂
        have hfs : fs = (nm.getD "", t₀) :: fsr ∧ regF = regR := by
          have h2 : some ((nm.getD "", t₀) :: fsr, regR) = some (fs, regF) := by
            rw [← h]; simp [collectFields, hc, hcf]
          have hpair := (Option.some.injEq _ _).mp h2
          exact ⟨(congrArg Prod.fst hpair).symm, (congrArg Prod.snd hpair).symm⟩
        obtain ⟨hfs₁, hfs₂⟩ := hfs
        subst hfs₁
        subst hfs₂
        have hwM : WF regM := by
          obtain ⟨ts₀, regM₀, hc₀, hwM₀, _, _⟩ :=
            collect_signatures_WF v reg m false hw
          rw [hc] at hc₀
          have hpair := (Option.some.injEq _ _).mp hc₀
          have hr : regM = regM₀ := congrArg Prod.snd hpair
          rw [hr]
          exact hwM₀
        have hextMR : RegExt regM regF := by
          obtain ⟨fs₀, regR₀, hcf₀, _, hext₀, _⟩ :=
            collectFields_WF rest regM m hwM
          rw [hcf] at hcf₀
          have hpair := (Option.some.injEq _ _).mp hcf₀
          have hr : regF = regR₀ := congrArg Prod.snd hpair
          rw [hr]
          exact hext₀
        obtain ⟨regM2, hc2, hwM2, hextM2⟩ :=
          collect_stable v reg m false t₀ regM hw hc reg' hw'
            (RegExt_trans hextMR hext') false
        obtain ⟨regR2, hcf2, hwR2, hextR2⟩ :=
          collectFields_stable rest regM m fsr regF hwM hcf regM2 hwM2
            (RegExt_trans hext' hextM2)
        refine ⟨regR2, ?_, hwR2, RegExt_trans hextM2 hextR2⟩
        simp [collectFields, hc2, hcf2]
termination_by l _ _ _ _ => (sizeOf l, 0)

theorem collectElems_stable :
    ∀ (l : List IonValue) (reg : SignatureRegistry) (m : Nat)
      (els : List TypeSignature) (regF : SignatureRegistry),
      WF reg →
      collectElems l reg m = some (els, regF) →
      ∀ reg' : SignatureRegistry, WF reg' → RegExt regF reg' →
      ∃ regB, collectElems l reg' m = some (els, regB) ∧
        WF regB ∧ RegExt reg' regB
  | [], reg, m, els, regF => fun _ h reg' hw' _ => by
    simp only [collectElems, Option.some.injEq, Prod.mk.injEq] at h
    exact ⟨reg', by simp [collectElems, h.1], hw', RegExt_refl _⟩
  | v :: rest, reg, m, els, regF => fun hw h reg' hw' hext' => by
    cases hc : collect_signatures v reg m false with
    | none => simp [collectElems, hc] at h
    | some pr =>
      obtain ⟨t₀, regM⟩ := pr
      cases hce : collectElems rest regM m with
      | none => simp [collectElems, hc, hce] at h
      | some pr₂ =>
        obtain ⟨elr, regR⟩ := pr₂
        have hfs : els = t₀ :: elr ∧ regF = regR := by
          have h2 : some (t₀ :: elr, regR) = some (els, regF) := by
            rw [← h]; simp [collectElems, hc, hce]
          have hpair := (Option.some.injEq _ _).mp h2
          exact ⟨(congrArg Prod.fst hpair).symm, (congrArg Prod.snd hpair).symm⟩
        obtain ⟨hfs₁, hfs₂⟩ := hfs
        subst hfs₁
        subst hfs₂
        have hwM : WF regM := by
          obtain ⟨ts₀, regM₀, hc₀, hwM₀, _, _⟩ :=
            collect_signatures_WF v reg m false hw
          rw [hc] at hc₀
          have hpair := (Option.some.injEq _ _).mp hc₀
          have hr : regM = regM₀ := congrArg Prod.snd hpair
          rw [hr]
          exact hwM₀
        have hextMR : RegExt regM regF := by
          obtain ⟨els₀, regR₀, hce₀, _, hext₀, _⟩ :=
            collectElems_WF rest regM m hwM
          rw [hce] at hce₀
          have hpair := (Option.some.injEq _ _).mp hce₀
          have hr : regF = regR₀ := congrArg Prod.snd hpair
          rw [hr]
          exact hext₀
        obtain ⟨regM2, hc2, hwM2, hextM2⟩ :=
          collect_stable v reg m false t₀ regM hw hc reg' hw'
            (RegExt_trans hextMR hext') false
        obtain ⟨regR2, hce2, hwR2, hextR2⟩ :=
          collectElems_stable rest regM m elr regF hwM hce regM2 hwM2
            (RegExt_trans hext' hextM2)
        refine ⟨regR2, ?_, hwR2, RegExt_trans hextM2 hextR2⟩
        simp [collectElems, hc2, hce2]
termination_by l _ _ _ _ => (sizeOf l, 0)

end

/-- One field slot's stable reduction behaviour relative to a reference
registry state `R`: the produced name is the field's name (empty-string
fallback), and re-reducing the field value from any well-formed extension of
`R` returns the same `TypeSignature`. -/
def StableF (R : SignatureRegistry) (m : Nat)
    (p : Option String × IonValue) (q : String × TypeSignature) : Prop :=
  q.1 = p.1.getD "" ∧
  ∀ reg', WF reg' → RegExt R reg' →
    ∃ reg₂, collect_signatures p.2 reg' m false = some (q.2, reg₂) ∧
      WF reg₂ ∧ RegExt reg' reg₂

theorem collectFields_stableF :
    ∀ (l : List (Option String × IonValue)) (reg : SignatureRegistry) (m : Nat)
      (fs : List (String × TypeSignature)) (regF : SignatureRegistry),
      WF reg → collectFields l reg m = some (fs, regF) →
      List.Forall₂ (StableF regF m) l fs := by
  intro l
  induction l with
  | nil =>
    intro reg m fs regF hw h
    simp only [collectFields, Option.some.injEq, Prod.mk.injEq] at h
    rw [← h.1]
    exact List.Forall₂.nil
  | cons p rest ih =>
    intro reg m fs regF hw h
    obtain ⟨nm, v⟩ := p
    cases hc : collect_signatures v reg m false with
    | none => simp [collectFields, hc] at h
    | some pr =>
      obtain ⟨t₀, regM⟩ := pr
      cases hcf : collectFields rest regM m with
      | none => simp [collectFields, hc, hcf] at h
      | some pr₂ =>
        obtain ⟨fsr, regR⟩ := pr₂
        have hfs : fs = (nm.getD "", t₀) :: fsr ∧ regF = regR := by
          have h2 : some ((nm.getD "", t₀) :: fsr, regR) = some (fs, regF) := by
            rw [← h]; simp [collectFields, hc, hcf]
          have hpair := (Option.some.injEq _ _).mp h2
          exact ⟨(congrArg Prod.fst hpair).symm, (congrArg Prod.snd hpair).symm⟩
        obtain ⟨hfs₁, hfs₂⟩ := hfs
        subst hfs₁
        subst hfs₂
        have hwM : WF regM := by
          obtain ⟨ts₀, regM₀, hc₀, hwM₀, _, _⟩ :=
            collect_signatures_WF v reg m false hw
          rw [hc] at hc₀
          have hpair := (Option.some.injEq _ _).mp hc₀
          have hr : regM = regM₀ := congrArg Prod.snd hpair
          rw [hr]; exact hwM₀
        have hextMR : RegExt regM regF := by
          obtain ⟨fs₀, regR₀, hcf₀, _, hext₀, _⟩ :=
            collectFields_WF rest regM m hwM
          rw [hcf] at hcf₀
          have hpair := (Option.some.injEq _ _).mp hcf₀
          have hr : regF = regR₀ := congrArg Prod.snd hpair
          rw [hr]; exact hext₀
        refine List.Forall₂.cons ⟨rfl, ?_⟩ (ih regM m fsr regF hwM hcf)
        intro reg' hw' hext'
        exact collect_stable v reg m false t₀ regM hw hc reg' hw'
          (RegExt_trans hextMR hext') false

theorem forall2_stableF_keys {R : SignatureRegistry} {m : Nat} :
    ∀ {l : List (Option String × IonValue)}
      {fs : List (String × TypeSignature)},
      List.Forall₂ (StableF R m) l fs →
      fs.map Prod.fst = l.map (fun p => p.1.getD "") := by
  intro l fs h
  induction h with
  | nil => rfl
  | @cons a b l₁ l₂ h₁ h₂ ih => simp only [List.map_cons, ih, h₁.1]

theorem forall2_perm_left {α β : Type} {r : α → β → Prop} :
    ∀ {l₁ l₂ : List α}, l₁.Perm l₂ → ∀ {f₂ : List β}, List.Forall₂ r l₂ f₂ →
      ∃ f₁, List.Forall₂ r l₁ f₁ ∧ f₁.Perm f₂ := by
  intro l₁ l₂ hp
  induction hp with
  | nil =>
    intro f₂ h
    cases h
    exact ⟨[], List.Forall₂.nil, List.Perm.nil⟩
  | cons x hin ih =>
    intro f₂ h
    cases h with
    | cons hx hrest =>
      obtain ⟨f₁, hf₁, hpf⟩ := ih hrest
      exact ⟨_ :: f₁, List.Forall₂.cons hx hf₁, hpf.cons _⟩
  | swap x y l =>
    intro f₂ h
    cases h with
    | cons hx h2 =>
      cases h2 with
      | cons hy hrest =>
        exact ⟨_ :: _ :: _, List.Forall₂.cons hy (List.Forall₂.cons hx hrest),
          List.Perm.swap _ _ _⟩
  | trans h₁₂ h₂₃ ih₁₂ ih₂₃ =>
    intro f₂ h
    obtain ⟨fmid, hfmid, hp1⟩ := ih₂₃ h
    obtain ⟨f₁, hf₁, hp2⟩ := ih₁₂ hfmid
    exact ⟨f₁, hf₁, hp2.trans hp1⟩

theorem collectFields_of_stableF (m : Nat) {R : SignatureRegistry} :
    ∀ {l : List (Option String × IonValue)}
      {fs : List (String × TypeSignature)},
      List.Forall₂ (StableF R m) l fs →
      ∀ reg', WF reg' → RegExt R reg' →
      ∃ regB, collectFields l reg' m = some (fs, regB) ∧ WF regB ∧
        RegExt reg' regB := by
  intro l fs hf
  induction hf with
  | nil =>
    intro reg' hw' _
    exact ⟨reg', by simp [collectFields], hw', RegExt_refl _⟩
  | @cons a b l₁ l₂ hpq hrest ih =>
    intro reg' hw' hext'
    obtain ⟨nm, v⟩ := a
    obtain ⟨reg₂, hc, hw₂, hext₂⟩ := hpq.2 reg' hw' hext'
    obtain ⟨regB, hcf, hwB, hextB⟩ := ih reg₂ hw₂ (RegExt_trans hext' hext₂)
    refine ⟨regB, ?_, hwB, RegExt_trans hext₂ hextB⟩
    have hb : (nm.getD "", b.2) = b := by
      have h1 : b.1 = nm.getD "" := hpq.1
      rw [← h1]
    simp [collectFields, hc, hcf, hb]

/-- C7, amended: field-order invariance holds whenever the struct's field
names are distinct.  If reducing `{f₁, …, fₙ}` produced the `TypeSignature`
`s`, then reducing any reordering of the same fields next (from the registry
state the first reduction left behind, with any top-level flag) produces
exactly the same `s`: the identical canonical name-sorted shape and, when the
shape was registered, a cache hit on the identical id.  (With duplicate field
names this fails — see the counterexample — because the sort is stable and
only compares names.) -/
theorem C7_field_order_amended (l l' : List (Option String × IonValue))
    (reg : SignatureRegistry) (m : Nat) (t t' : Bool) (s : TypeSignature)
    (reg₁ : SignatureRegistry) (hw : WF reg) (hperm : l.Perm l')
    (hnodup : (l.map (fun p => p.1.getD "")).Nodup)
    (h : collect_signatures (.struct l) reg m t = some (s, reg₁)) :
    ∃ reg₂, collect_signatures (.struct l') reg₁ m t' = some (s, reg₂) := by
  obtain ⟨fs, regF, hcf, hwF, hextF, hrefsF⟩ := collectFields_WF l reg m hw
  have hsorted : fieldsRefsOK regF.id_to_signature regF.next_id
      (sortFields fs) = true := by
    rw [fieldsRefsOK_forall] at hrefsF ⊢
    exact fun p hp => hrefsF p ((sortFields_perm fs).subset hp)
  have hcsrefs : csRefsOK regF.id_to_signature regF.next_id
      (.Struct (sortFields fs)) = true := by
    simpa [csRefsOK] using hsorted
  have hsz := csSize_isSome (regF.next_id + 1) regF (WF_MapRefsOK hwF)
    (.Struct (sortFields fs))
    (csRefsOK_mono _ _ _ _ (Nat.le_succ _) (fun _ hx => hx) _ hcsrefs)
  obtain ⟨n, hn⟩ := Option.isSome_iff_exists.mp hsz
  have hforall := collectFields_stableF l reg m fs regF hw hcf
  obtain ⟨fs', hforall', hpfs⟩ := forall2_perm_left hperm.symm hforall
  have hkeys : fs.map Prod.fst = l.map (fun p => p.1.getD "") :=
    forall2_stableF_keys hforall
  have hnfs : (fs'.map Prod.fst).Nodup := by
    have h1 : (fs.map Prod.fst).Nodup := by rw [hkeys]; exact hnodup
    exact ((hpfs.map Prod.fst).nodup_iff).mpr h1
  have hsort : sortFields fs' = sortFields fs :=
    sortFields_eq_of_perm fs' fs hpfs hnfs
  by_cases hmn : m ≤ n
  · obtain ⟨b, id, regG, hg, hwG, hextG, hsid, hidlt, e', he', hes⟩ :=
      get_or_create_id_WF regF (.Struct (sortFields fs)) t hwF hcsrefs
    have hcont : ∀ R1 : SignatureRegistry, WF R1 → RegExt regG R1 →
        ∃ reg₂, collect_signatures (.struct l') R1 m t' =
          some (.Container id, reg₂) := by
      intro R1 hwR1 hextR1
      have hextFr : RegExt regF R1 := RegExt_trans hextG hextR1
      obtain ⟨regB2, hcf2, hwB2, hextB2⟩ :=
        collectFields_of_stableF m hforall' R1 hwR1 hextFr
      have hchain : RegExt regF regB2 := RegExt_trans hextFr hextB2
      have hn2 : ContainerSignature.size (regB2.next_id + 1) regB2
          (.Struct (sortFields fs)) = some n :=
        csSize_ext_mono (regF.next_id + 1) (regB2.next_id + 1)
          (by have := hchain.1; omega) regF regB2 hchain.2.2 _ n hn
      have hsid2 : alook regB2.signature_to_id (.Struct (sortFields fs)) =
          some id := (RegExt_trans hextR1 hextB2).2.1 _ _ hsid
      obtain ⟨e2, he2, -⟩ := (RegExt_trans hextR1 hextB2).2.2 id e' he'
      have hn2a : ContainerSignature.size (regB2.next_id + 1) regB2
          (.Struct (sortFields fs')) = some n := by rw [hsort]; exact hn2
      have hg2 : get_or_create_id regB2 (.Struct (sortFields fs')) t' =
          some ((true, id), { regB2 with id_to_signature := aupd regB2.id_to_signature id (fun o => { o with count := o.count + 1, appears_top_level := o.appears_top_level || t' }) }) := by
        rw [hsort]
        simp [get_or_create_id, hsid2, he2]
      refine ⟨{ regB2 with id_to_signature := aupd regB2.id_to_signature id (fun o => { o with count := o.count + 1, appears_top_level := o.appears_top_level || t' }) }, ?_⟩
      simp only [collect_signatures, hcf2]
      simp [hn2a, hmn, hg2]
    cases b with
    | true =>
      have hrun : collect_signatures (.struct l) reg m t =
          some (.Container id, regG) := by
        simp only [collect_signatures, hcf]
        simp [hn, hg, hmn]
      rw [hrun] at h
      have hpair := (Option.some.injEq _ _).mp h
      have hs₀ : TypeSignature.Container id = s := congrArg Prod.fst hpair
      have hr₀ : regG = reg₁ := congrArg Prod.snd hpair
      subst hr₀
      rw [← hs₀]
      exact hcont regG hwG (RegExt_refl _)
    | false =>
      have hpres : ∀ cid, TypeSignature.Container cid ∈
          (sortFields fs).map Prod.snd →
          (alook regG.id_to_signature cid).isSome = true := by
        intro cid hin
        obtain ⟨p, hp, hpe⟩ := List.mem_map.mp hin
        rw [fieldsRefsOK_forall] at hsorted
        have hts := hsorted p hp
        rw [hpe] at hts
        simp only [tsRefsOK, Bool.and_eq_true, decide_eq_true_eq] at hts
        exact RegExt_presence hextG cid hts.2
      obtain ⟨regB, hbump, hwB, hextB⟩ :=
        bump_parents_WF ((sortFields fs).map Prod.snd) regG hwG hpres
      have hrun : collect_signatures (.struct l) reg m t =
          some (.Container id, regB) := by
        simp only [collect_signatures, hcf]
        simp [hn, hg, hmn, hbump]
      rw [hrun] at h
      have hpair := (Option.some.injEq _ _).mp h
      have hs₀ : TypeSignature.Container id = s := congrArg Prod.fst hpair
      have hr₀ : regB = reg₁ := congrArg Prod.snd hpair
      subst hr₀
      rw [← hs₀]
      exact hcont regB hwB hextB
  · have hrun : collect_signatures (.struct l) reg m t =
        some (.Verbatim (.Struct (sortFields fs)), regF) := by
      simp only [collect_signatures, hcf]
      simp [hn, hmn]
    rw [hrun] at h
    have hpair := (Option.some.injEq _ _).mp h
    have hs₀ : TypeSignature.Verbatim (.Struct (sortFields fs)) = s :=
      congrArg Prod.fst hpair
    have hr₀ : regF = reg₁ := congrArg Prod.snd hpair
    subst hr₀
    obtain ⟨regB2, hcf2, hwB2, hextB2⟩ :=
      collectFields_of_stableF m hforall' regF hwF (RegExt_refl _)
    have hn2 : ContainerSignature.size (regB2.next_id + 1) regB2
        (.Struct (sortFields fs)) = some n :=
      csSize_ext_mono (regF.next_id + 1) (regB2.next_id + 1)
        (by have := hextB2.1; omega) regF regB2 hextB2.2.2 _ n hn
    have hn2a : ContainerSignature.size (regB2.next_id + 1) regB2
        (.Struct (sortFields fs')) = some n := by rw [hsort]; exact hn2
    refine ⟨regB2, ?_⟩
    simp only [collect_signatures, hcf2]
    rw [← hs₀, ← hsort]
    simp [hn2a, hmn]

theorem C7_witness :
    ∃ reg₂, collect_signatures
      (.struct [(some "y", .int), (some "x", .int)]) (regXY 1) 2 true =
      some (.Container 0, reg₂) := by
  refine C7_field_order_amended [(some "x", .int), (some "y", .int)]
    [(some "y", .int), (some "x", .int)] SignatureRegistry.new 2 true true
    (.Container 0) (regXY 1) WF_new (List.Perm.swap _ _ _) (by simp) ?_
  exact eval_collect_vXY_first
